import Mathlib

/-!
Verification development for the price-extraction engine of the
Price-Tracker-Bot repository (src/lib/tracker.js).

Modelling conventions.

JavaScript numbers are modelled exactly, as decimals (an integer mantissa
with a power-of-ten scale, see JNum below, whose meaning is the rational
JNum.toRat).  Every numeric text the engine parses is a decimal literal,
so this is an exact model; NaN and Infinity are modelled by the absence of
a value (Option.none), exactly as the code itself maps non-finite parses
to null.

Strings are processed as lists of characters.  The regular expressions of
tracker.js are modelled by hand-written scanners that implement the JS
backtracking semantics of each concrete pattern; each scanner is documented
with the regex it implements and the reasoning for any simplification.
Scanners that consume a variable number of characters per step take an
explicit fuel argument (initialised with the length of the input, which is
an upper bound on the number of steps because every step consumes at least
one character) so that all definitions reduce by structural recursion.

Calls into external libraries (axios for fetching, cheerio for DOM queries,
JSON.parse) are modelled as inputs: the Doc structure carries the results
of the DOM queries the engine performs, and linked-data script blocks carry
their JSON.parse outcome.  All logic written in tracker.js itself is
modelled explicitly.
-/

namespace PriceTracker

/-! ### Character classes used by the JS regexes -/

/-- The whitespace characters matched by backslash-s in JS regexes and by
String.prototype.trim (WhiteSpace plus LineTerminator). -/
def jsWsChars : List Char :=
  [' ', '\t', '\n', '\r', '\x0b', '\x0c', '\u00A0', '\u1680',
   '\u2000', '\u2001', '\u2002', '\u2003', '\u2004', '\u2005', '\u2006',
   '\u2007', '\u2008', '\u2009', '\u200A', '\u2028', '\u2029', '\u202F',
   '\u205F', '\u3000', '\uFEFF']

def isJsWs (c : Char) : Bool := jsWsChars.contains c

/-- JS regex word character class: ASCII letters, digits and underscore. -/
def isWordChar (c : Char) : Bool := c.isAlphanum || c = '_'

/-- Case-insensitive match of a literal pattern against a prefix of the
input; returns the rest of the input after the pattern on success. -/
def matchTokCI : List Char → List Char → Option (List Char)
  | [], l => some l
  | _ :: _, [] => none
  | p :: ps, c :: cs => if p.toLower = c.toLower then matchTokCI ps cs else none

/-- Does the needle occur as a prefix of the haystack (case-sensitive)? -/
def startsWithL : List Char → List Char → Bool
  | [], _ => true
  | _ :: _, [] => false
  | n :: ns, h :: hs => n = h && startsWithL ns hs

/-- Substring containment, the model of String.prototype.includes. -/
def containsSubL (n : List Char) : List Char → Bool
  | [] => decide (n = [])
  | c :: t => startsWithL n (c :: t) || containsSubL n t

/-- Case-insensitive substring containment (for the i-flagged regex tests). -/
def containsCI (n l : List Char) : Bool :=
  containsSubL (n.map Char.toLower) (l.map Char.toLower)

/-! ### Exact decimal numbers

JavaScript numbers are modelled by exact decimals: a mantissa and a power
of ten, with value mantissa divided by ten to the exponent.  Every number
the engine manipulates originates from a decimal literal, so this is an
exact model, and - unlike rational normalisation - all of its operations
reduce inside the kernel.  Comparisons are value comparisons by cross
multiplication, exactly the numeric (not representational) comparisons of
JS.  The meaning of a decimal is given by toRat, used in the statements of
the theorems. -/

structure JNum where
  m : ℤ
  e : ℕ
  deriving DecidableEq, Repr

def pow10 : ℕ → ℤ
  | 0 => 1
  | n + 1 => 10 * pow10 n

def JNum.toRat (a : JNum) : ℚ := (a.m : ℚ) / 10 ^ a.e

/-- Numeric equality (the === of JS on numbers). -/
def JNum.beqVal (a b : JNum) : Bool := a.m * pow10 b.e == b.m * pow10 a.e

/-- Numeric order. -/
def JNum.leVal (a b : JNum) : Bool := decide (a.m * pow10 b.e ≤ b.m * pow10 a.e)

def JNum.ltVal (a b : JNum) : Bool := decide (a.m * pow10 b.e < b.m * pow10 a.e)

def JNum.posVal (a : JNum) : Bool := decide (0 < a.m)

def JNum.negJ (a : JNum) : JNum := ⟨-a.m, a.e⟩

/-- Math.min on two numbers. -/
def JNum.minJ (a b : JNum) : JNum := if JNum.ltVal b a then b else a

theorem pow10_eq (n : ℕ) : pow10 n = (10 : ℤ) ^ n := by
  induction n with
  | zero => rfl
  | succ k ih => rw [pow10, ih, pow_succ]; ring

theorem pow10_pos (n : ℕ) : (0 : ℤ) < pow10 n := by
  rw [pow10_eq]; positivity

theorem pow10_cast (n : ℕ) : ((pow10 n : ℤ) : ℚ) = 10 ^ n := by
  rw [pow10_eq]; push_cast; ring

theorem toRat_le_iff (a b : JNum) : JNum.leVal a b = true ↔ a.toRat ≤ b.toRat := by
  unfold JNum.leVal JNum.toRat
  rw [decide_eq_true_iff, div_le_div_iff₀ (by positivity) (by positivity)]
  rw [show ((10 : ℚ) ^ b.e = ((pow10 b.e : ℤ) : ℚ)) from (pow10_cast b.e).symm,
      show ((10 : ℚ) ^ a.e = ((pow10 a.e : ℤ) : ℚ)) from (pow10_cast a.e).symm]
  push_cast
  constructor <;> intro h <;> exact_mod_cast h

theorem toRat_lt_iff (a b : JNum) : JNum.ltVal a b = true ↔ a.toRat < b.toRat := by
  unfold JNum.ltVal JNum.toRat
  rw [decide_eq_true_iff, div_lt_div_iff₀ (by positivity) (by positivity)]
  rw [show ((10 : ℚ) ^ b.e = ((pow10 b.e : ℤ) : ℚ)) from (pow10_cast b.e).symm,
      show ((10 : ℚ) ^ a.e = ((pow10 a.e : ℤ) : ℚ)) from (pow10_cast a.e).symm]
  push_cast
  constructor <;> intro h <;> exact_mod_cast h

theorem toRat_beq_iff (a b : JNum) : JNum.beqVal a b = true ↔ a.toRat = b.toRat := by
  unfold JNum.beqVal JNum.toRat
  rw [beq_iff_eq, div_eq_div_iff (by positivity) (by positivity)]
  rw [show ((10 : ℚ) ^ b.e = ((pow10 b.e : ℤ) : ℚ)) from (pow10_cast b.e).symm,
      show ((10 : ℚ) ^ a.e = ((pow10 a.e : ℤ) : ℚ)) from (pow10_cast a.e).symm]
  push_cast
  constructor <;> intro h <;> exact_mod_cast h

theorem toRat_pos_iff (a : JNum) : JNum.posVal a = true ↔ 0 < a.toRat := by
  unfold JNum.posVal JNum.toRat
  rw [decide_eq_true_iff]
  constructor
  · intro h; positivity
  · intro h
    by_contra hneg
    push_neg at hneg
    have : (a.m : ℚ) ≤ 0 := by exact_mod_cast hneg
    have hp : (0 : ℚ) < 10 ^ a.e := by positivity
    nlinarith [div_nonpos_of_nonpos_of_nonneg this (le_of_lt hp)]

theorem minJ_cases (a b : JNum) : JNum.minJ a b = a ∨ JNum.minJ a b = b := by
  unfold JNum.minJ
  by_cases h : JNum.ltVal b a = true
  · rw [if_pos h]; exact Or.inr rfl
  · rw [if_neg h]; exact Or.inl rfl

theorem minJ_le_left (a b : JNum) : (JNum.minJ a b).toRat ≤ a.toRat := by
  unfold JNum.minJ
  by_cases h : JNum.ltVal b a = true
  · rw [if_pos h]; exact le_of_lt ((toRat_lt_iff b a).1 h)
  · rw [if_neg h]

theorem minJ_le_right (a b : JNum) : (JNum.minJ a b).toRat ≤ b.toRat := by
  unfold JNum.minJ
  by_cases h : JNum.ltVal b a = true
  · rw [if_pos h]
  · rw [if_neg h]
    have := (toRat_lt_iff b a).not.1 (by simp [h])
    push_neg at this
    exact this

/-! ### The JS parseFloat model

parseFloat parses the longest prefix of the input that is a decimal
literal: optional sign, digits with an optional fraction (or a bare
fraction), and an optional exponent; the prefix Infinity yields a
non-finite value.  The model returns the parsed value as an exact decimal,
and none when the result is NaN or non-finite, which is exactly the
distinction the callers in tracker.js make via Number.isFinite / isNaN. -/

def digToNat (c : Char) : ℕ := c.toNat - 48

/-- Consume a maximal run of digits, returning its value, its length and
the rest of the input. -/
def takeDigitsAux : ℕ → ℕ → List Char → ℕ × ℕ × List Char
  | v, n, [] => (v, n, [])
  | v, n, c :: t =>
    if c.isDigit then takeDigitsAux (10 * v + digToNat c) (n + 1) t else (v, n, c :: t)

def takeDigits (l : List Char) : ℕ × ℕ × List Char := takeDigitsAux 0 0 l

/-- An optional exponent part: e or E, an optional sign, and at least one
digit; anything else leaves the value unchanged (parseFloat simply stops
before an ill-formed exponent). -/
def expVal (l : List Char) : Option (Bool × ℕ) :=
  match l with
  | c :: t =>
    if c = 'e' ∨ c = 'E' then
      match t with
      | '+' :: u =>
        (match takeDigits u with
         | (_, 0, _) => none
         | (v, _, _) => some (false, v))
      | '-' :: u =>
        (match takeDigits u with
         | (_, 0, _) => none
         | (v, _, _) => some (true, v))
      | u =>
        (match takeDigits u with
         | (_, 0, _) => none
         | (v, _, _) => some (false, v))
    else none
  | [] => none

def applyExp (q : JNum) (l : List Char) : JNum :=
  match expVal l with
  | some (true, p) => ⟨q.m, q.e + p⟩
  | some (false, p) => ⟨q.m * pow10 p, q.e⟩
  | none => q

def infinityChars : List Char := ['I', 'n', 'f', 'i', 'n', 'i', 't', 'y']

/-- The unsigned part of parseFloat.  An Infinity prefix parses to a
non-finite value, hence none here. -/
def parseFloatPos (l : List Char) : Option JNum :=
  if startsWithL infinityChars l then none else
  match takeDigits l with
  | (_, 0, rest) =>
    (match rest with
     | '.' :: r2 =>
       (match takeDigits r2 with
        | (_, 0, _) => none
        | (f, nF, r3) => some (applyExp ⟨(f : ℤ), nF⟩ r3))
     | _ => none)
  | (v, _, rest) =>
    (match rest with
     | '.' :: r2 =>
       (match takeDigits r2 with
        | (f, nF, r3) => some (applyExp ⟨(v : ℤ) * pow10 nF + (f : ℤ), nF⟩ r3))
     | _ => some (applyExp ⟨(v : ℤ), 0⟩ rest))

/-- parseFloat restricted to finite results (the only results the callers
keep). -/
def parseFloatQ : List Char → Option JNum
  | '+' :: t => parseFloatPos t
  | '-' :: t => (parseFloatPos t).map JNum.negJ
  | l => parseFloatPos l

/-! ### parseNumberFlexible (tracker.js lines 68-82) -/

/-- String.prototype.trim: drop JS whitespace from both ends. -/
def jsTrimL (l : List Char) : List Char :=
  ((l.dropWhile isJsWs).reverse.dropWhile isJsWs).reverse

/-- The currency characters of the class in the regex. -/
def currencySingles : List Char := ['₹', '$', '€', '£']

/-- One step of the global case-insensitive replace with pattern
currency-class or INR or USD or EUR or GBP or Rs with an optional dot:
try the alternatives in the order they are written, returning the rest of
the input after the matched occurrence. -/
def matchCurrencyTok (l : List Char) : Option (List Char) :=
  match l with
  | [] => none
  | c :: t =>
    if currencySingles.contains c then some t
    else
      match matchTokCI ['I', 'N', 'R'] l with
      | some r => some r
      | none =>
        match matchTokCI ['U', 'S', 'D'] l with
        | some r => some r
        | none =>
          match matchTokCI ['E', 'U', 'R'] l with
          | some r => some r
          | none =>
            match matchTokCI ['G', 'B', 'P'] l with
            | some r => some r
            | none =>
              match matchTokCI ['R', 's'] l with
              | some r => some (match r with | '.' :: r2 => r2 | _ => r)
              | none => none

/-- The global replace deleting every occurrence of the currency pattern,
scanning left to right without rescanning replaced text.  Each step
consumes at least one character, so the length of the input is enough
fuel. -/
def stripCurrencyF : ℕ → List Char → List Char
  | 0, l => l
  | _ + 1, [] => []
  | fuel + 1, c :: t =>
    match matchCurrencyTok (c :: t) with
    | some rest => stripCurrencyF fuel rest
    | none => c :: stripCurrencyF fuel t

def stripCurrency (l : List Char) : List Char := stripCurrencyF l.length l

/-- The replace of one-or-more whitespace by the empty string removes
exactly the whitespace characters. -/
def removeWs (l : List Char) : List Char := l.filter (fun c => !isJsWs c)

/-- The global replace of commas by the empty string. -/
def removeCommas (l : List Char) : List Char := l.filter (fun c => c != ',')

/-- String.prototype.split on the dot character. -/
def splitDots : List Char → List (List Char)
  | [] => [[]]
  | c :: t =>
    if c = '.' then [] :: splitDots t
    else
      match splitDots t with
      | [] => [[c]]
      | h :: r => (c :: h) :: r

def joinAll (ps : List (List Char)) : List Char := ps.foldr (· ++ ·) []

/-- Lines 76-79: when the split has more than two parts, keep only the
last dot: join all parts but the last, a dot, then the last part. -/
def codeCollapse (l : List Char) : List Char :=
  let ps := splitDots l
  if 2 < ps.length then joinAll ps.dropLast ++ '.' :: ps.getLastD [] else l

def parseNumberFlexibleL (l : List Char) : Option JNum :=
  if l = [] then none else
  let s1 := jsTrimL l
  let s2 := removeWs (stripCurrency s1)
  let s3 := removeCommas s2
  parseFloatQ (codeCollapse s3)

def parseNumberFlexible (s : String) : Option JNum := parseNumberFlexibleL s.data

/-! ### extractPriceFromText (tracker.js lines 34-66) -/

def newlineToSpace (l : List Char) : List Char :=
  l.map (fun c => if c = '\n' ∨ c = '\r' then ' ' else c)

def nbspToSpace (l : List Char) : List Char :=
  l.map (fun c => if c = ' ' then ' ' else c)

/-- The lookahead of the thousands-separator deletion: three digits
followed by a non-digit or the end of the input. -/
def lookahead3 : List Char → Bool
  | d1 :: d2 :: d3 :: rest =>
    d1.isDigit && d2.isDigit && d3.isDigit &&
      (match rest with | [] => true | x :: _ => !x.isDigit)
  | _ => false

/-- The global replace deleting a comma or space that is followed by
exactly three digits and then a non-digit or the end (the pattern
comma-or-space with a three-digit lookahead).  Each deletion is one
character wide and the lookahead inspects the original text, so a plain
character scan is faithful. -/
def thousandsPre : List Char → List Char
  | [] => []
  | c :: t =>
    if (c = ',' ∨ c = ' ') ∧ lookahead3 t then thousandsPre t
    else c :: thousandsPre t

/-- The ways the currency-marker group can match at the current position,
as the list of inputs remaining after the marker, in backtracking
priority order.  The alternatives (INR, Rs with an optional dot, the
rupee sign, USD, the dollar sign, EUR, the euro sign, GBP, the pound
sign) start with pairwise distinct characters, also case-insensitively,
so at most one alternative family applies at a position and the only
internal choice is whether Rs consumes a following dot (the greedy option
first).  The two currency regexes of tracker.js use the same alternatives
(only in a different order, which is immaterial by the disjointness), so
this single definition serves both. -/
def markerRests (l : List Char) : List (List Char) :=
  match l with
  | [] => []
  | c :: t =>
    if currencySingles.contains c then [t]
    else
      match matchTokCI ['I', 'N', 'R'] l with
      | some r => [r]
      | none =>
        match matchTokCI ['U', 'S', 'D'] l with
        | some r => [r]
        | none =>
          match matchTokCI ['E', 'U', 'R'] l with
          | some r => [r]
          | none =>
            match matchTokCI ['G', 'B', 'P'] l with
            | some r => [r]
            | none =>
              match matchTokCI ['R', 's'] l with
              | some r => (match r with | '.' :: r2 => [r2, r] | _ => [r])
              | none => []

/-- The numeric group of the currency regex in extractPriceFromText:
digits, optionally followed by a dot-or-comma and exactly two digits.
The regex offers a second alternative (digits with three-digit groups),
but the first alternative already succeeds on every input that starts
with a digit, and JS alternation is first-match rather than
longest-match, so the second alternative is unreachable. -/
def numTok2 (l : List Char) : Option (List Char × List Char) :=
  let p := l.span Char.isDigit
  if p.1 = [] then none else
  match p.2 with
  | s :: x :: y :: r3 =>
    if (s = '.' ∨ s = ',') ∧ x.isDigit ∧ y.isDigit then
      some (p.1 ++ s :: x :: y :: [], r3)
    else some (p.1, p.2)
  | _ => some (p.1, p.2)

/-- Try the whole currency-and-number pattern at the current position,
returning the captured numeric group of the first backtracking variant
that succeeds.  Shrinking the whitespace run cannot help after a failure
(a whitespace character is not a digit), so only the marker variants are
tried. -/
def curNumAtRests : List (List Char) → Option (List Char)
  | [] => none
  | r :: rs =>
    match numTok2 (r.dropWhile isJsWs) with
    | some (raw, _) => some raw
    | none => curNumAtRests rs

/-- Leftmost match of the currency-and-number pattern: the captured
numeric group of the first position at which it matches. -/
def findCurMatchF : ℕ → List Char → Option (List Char)
  | 0, _ => none
  | _ + 1, [] => none
  | fuel + 1, c :: t =>
    match curNumAtRests (markerRests (c :: t)) with
    | some raw => some raw
    | none => findCurMatchF fuel t

/-- One attempt of the non-global thousands replace on the raw number
(digits, a dot, exactly three digits, not followed by a digit; the dot is
deleted).  Only the maximal digit run before the dot can match, because a
shorter run would have to be followed by a digit rather than the dot. -/
def tryThousandAt (l : List Char) : Option (List Char) :=
  let p := l.span Char.isDigit
  if p.1 = [] then none else
  match p.2 with
  | '.' :: x :: y :: z :: rest =>
    if x.isDigit && y.isDigit && z.isDigit &&
        (match rest with | [] => true | w :: _ => !w.isDigit) then
      some (p.1 ++ x :: y :: z :: rest)
    else none
  | _ => none

def thousandFixF : ℕ → List Char → List Char
  | 0, l => l
  | _ + 1, [] => []
  | fuel + 1, c :: t =>
    match tryThousandAt (c :: t) with
    | some out => out
    | none => c :: thousandFixF fuel t

/-- One attempt of the non-global comma-decimal replace (digits, a comma,
exactly two digits at the end; the comma becomes a dot). -/
def tryCommaDecAt (l : List Char) : Option (List Char) :=
  let p := l.span Char.isDigit
  if p.1 = [] then none else
  match p.2 with
  | ',' :: x :: y :: [] =>
    if x.isDigit ∧ y.isDigit then some (p.1 ++ '.' :: x :: y :: []) else none
  | _ => none

def commaDecFixF : ℕ → List Char → List Char
  | 0, l => l
  | _ + 1, [] => []
  | fuel + 1, c :: t =>
    match tryCommaDecAt (c :: t) with
    | some out => out
    | none => c :: commaDecFixF fuel t

/-- All matches of the fallback pattern: a digit run, optionally followed
by one dot-or-comma and another digit run (both runs maximal by
greediness). -/
def numTokensF : ℕ → List Char → List (List Char)
  | 0, _ => []
  | _ + 1, [] => []
  | fuel + 1, c :: t =>
    if c.isDigit then
      let p := (c :: t).span Char.isDigit
      match p.2 with
      | s :: r2 =>
        if s = '.' ∨ s = ',' then
          let p2 := r2.span Char.isDigit
          if p2.1 = [] then p.1 :: numTokensF fuel p.2
          else (p.1 ++ s :: p2.1) :: numTokensF fuel p2.2
        else p.1 :: numTokensF fuel p.2
      | [] => [p.1]
    else numTokensF fuel t

/-- Sorting in descending numeric order (the JS sort with comparator b
minus a); insertion sort returns the same list because the comparator is
a consistent total preorder and ties are value-equal numbers. -/
def insertDesc (x : JNum) : List JNum → List JNum
  | [] => [x]
  | y :: t => if JNum.leVal y x then x :: y :: t else y :: insertDesc x t

def sortDesc (l : List JNum) : List JNum := l.foldr insertDesc []

/-- Lines 54-65: collect all numeric tokens, strip commas, parse, sort
descending and pick the first entry that is at least one (which by the
descending order is simply the maximum), falling back to the first
entry. -/
def fallbackScan (cleaned : List Char) : Option JNum :=
  let numbers := ((numTokensF cleaned.length cleaned).map removeCommas).filterMap parseFloatQ
  if numbers = [] then none else
  let sorted := sortDesc numbers
  some ((sorted.find? (fun n => JNum.leVal ⟨1, 0⟩ n)).getD (sorted.headD ⟨0, 0⟩))

def extractPriceFromTextL (l : List Char) : Option JNum :=
  if l = [] then none else
  let cleaned := jsTrimL (thousandsPre (nbspToSpace (newlineToSpace l)))
  match findCurMatchF cleaned.length cleaned with
  | some raw =>
    let r1 := removeWs (removeCommas raw)
    let r2 := commaDecFixF r1.length (thousandFixF r1.length r1)
    (match parseFloatQ r2 with
     | some q => some q
     | none => fallbackScan cleaned)
  | none => fallbackScan cleaned

def extractPriceFromText (s : String) : Option JNum := extractPriceFromTextL s.data

/-! ### extractAllCurrencyPrices (tracker.js lines 84-95) -/

def isNumClass (c : Char) : Bool := c.isDigit || c = '.' || c = ','

/-- The currency-anchored global pattern: a marker, optional whitespace,
then one or more characters of the digit-dot-comma class (the optional
two-decimal suffix of the regex is subsumed by the greedy class run).
Returns the captured run and the rest of the input. -/
def curScanAtRests : List (List Char) → Option (List Char × List Char)
  | [] => none
  | r :: rs =>
    let r2 := r.dropWhile isJsWs
    let p := r2.span isNumClass
    if p.1 = [] then curScanAtRests rs else some (p.1, p.2)

def extractAllCurrencyPricesF : ℕ → List Char → List JNum
  | 0, _ => []
  | _ + 1, [] => []
  | fuel + 1, c :: t =>
    match curScanAtRests (markerRests (c :: t)) with
    | some (raw, rest) =>
      (match parseNumberFlexibleL raw with
       | some q => q :: extractAllCurrencyPricesF fuel rest
       | none => extractAllCurrencyPricesF fuel rest)
    | none => extractAllCurrencyPricesF fuel t

def extractAllCurrencyPrices (s : String) : List JNum :=
  extractAllCurrencyPricesF s.data.length s.data

/-! ### pickBestPrice (tracker.js lines 97-109) -/

/-- Array.from(new Set(list)): keep the first occurrence of each numeric
value, in encounter order. -/
def jsDedupAux (seen : List JNum) : List JNum → List JNum
  | [] => []
  | x :: t =>
    if seen.any (fun y => JNum.beqVal y x) then jsDedupAux seen t
    else x :: jsDedupAux (x :: seen) t

def jsDedup (l : List JNum) : List JNum := jsDedupAux [] l

/-- The currency-hint test of line 101: the uppercased hint contains INR,
or the hint is the rupee sign. -/
def isINRHint (h : String) : Bool :=
  containsSubL ['I', 'N', 'R'] (h.data.map Char.toUpper) || h = "₹"

def floorOf (h : String) : JNum := if isINRHint h then ⟨50, 0⟩ else ⟨5, 1⟩

/-- Math.min over a non-empty array (the empty case is unreachable behind
the guard of line 99 and defaults to zero). -/
def foldMin : List JNum → JNum
  | [] => ⟨0, 0⟩
  | x :: t => t.foldl JNum.minJ x

/-- The comparator of line 107 compared through zero: count of b minus
count of a if non-zero, otherwise a minus b; a sorts before b when the
comparator is non-positive. -/
def cmpLe (cnt : JNum → ℕ) (a b : JNum) : Bool :=
  if cnt b = cnt a then JNum.leVal a b else decide (cnt b < cnt a)

def insertCnt (cnt : JNum → ℕ) (x : JNum) : List JNum → List JNum
  | [] => [x]
  | y :: t => if cmpLe cnt x y then x :: y :: t else y :: insertCnt cnt x t

/-- The JS sort under the comparator.  The comparator is the lexicographic
order by descending count then ascending value, a total preorder whose
ties are value-equal numbers, so the sorted sequence of values is unique
and insertion sort models Array.prototype.sort faithfully. -/
def sortCnt (cnt : JNum → ℕ) : List JNum → List JNum
  | [] => []
  | x :: t => insertCnt cnt x (sortCnt cnt t)

def pickBestPrice (cands : List JNum) (hint : String) : Option JNum :=
  let uniq := jsDedup (cands.filter JNum.posVal)
  if uniq = [] then none else
  let filtered := uniq.filter (fun n => JNum.leVal (floorOf hint) n)
  if filtered = [] then some (foldMin uniq) else
  let cnt : JNum → ℕ := fun n => filtered.countP (fun x => JNum.beqVal x n)
  some ((sortCnt cnt filtered).headD ⟨0, 0⟩)

/-! ### JSON values and tryJSONLD (tracker.js lines 121-166)

JSON.parse itself is a library call; linked-data script blocks therefore
enter the model as their parse outcome (none for a block whose text is
empty or fails to parse, which the loop skips).  Everything tracker.js
does with the parsed value is modelled explicitly. -/

inductive JSON where
  | null : JSON
  | bool : Bool → JSON
  | num : JNum → JSON
  | str : String → JSON
  | arr : List JSON → JSON
  | obj : List (String × JSON) → JSON

/-- JS truthiness of a JSON value (NaN does not arise: JSON has no NaN
literal). -/
def jsTruthy : JSON → Bool
  | .null => false
  | .bool b => b
  | .num q => !(JNum.beqVal q ⟨0, 0⟩)
  | .str s => s ≠ ""
  | .arr _ => true
  | .obj _ => true

/-- Property lookup on a parsed JSON object.  JSON.parse keeps the last
of duplicate keys, hence the backwards preference. -/
def objGet (fields : List (String × JSON)) (k : String) : Option JSON :=
  match fields with
  | [] => none
  | (k2, v) :: t =>
    match objGet t k with
    | some r => some r
    | none => if k2 = k then some v else none

/-- Decimal digits of a natural number (for stringifying JSON numbers). -/
def natDigits : ℕ → ℕ → String
  | 0, _ => ""
  | _ + 1, 0 => ""
  | fuel + 1, n => natDigits fuel (n / 10) ++ toString (n % 10)

def natToStr (n : ℕ) : String := if n = 0 then "0" else natDigits (n + 1) n

/-- Drop trailing zeros of a fractional digit string. -/
def trimZeros (s : String) : String :=
  String.mk ((s.data.reverse.dropWhile (fun c => c = '0')).reverse)

/-- String conversion of an exact decimal, matching the JS number
toString on the integral and finite-decimal values that occur in
structured data (an integer prints without a point, otherwise the
fractional digits follow a point). -/
def jnumToStr (a : JNum) : String :=
  let sign := if a.m < 0 then "-" else ""
  let n := a.m.natAbs
  let d := pow10 a.e |>.natAbs
  if a.e = 0 then sign ++ natToStr n
  else
    let ip := n / d
    let fp := n % d
    if fp = 0 then sign ++ natToStr ip
    else
      let fracRaw := natToStr fp
      let pad := String.mk (List.replicate (a.e - fracRaw.length) '0')
      sign ++ natToStr ip ++ "." ++ trimZeros (pad ++ fracRaw)

/-- String(v) for a JSON value, with Array.prototype.join rendering null
entries as empty.  The recursion into array elements is bounded by fuel;
the documents under study nest far below the bound. -/
def jsonToStrF : ℕ → JSON → String
  | _, .null => "null"
  | _, .bool true => "true"
  | _, .bool false => "false"
  | _, .num q => jnumToStr q
  | _, .str s => s
  | 0, .arr _ => ""
  | fuel + 1, .arr l =>
    String.intercalate "," (l.map (fun v => match v with
      | .null => ""
      | w => jsonToStrF fuel w))
  | _, .obj _ => "[object Object]"

def jsonToStr (v : JSON) : String := jsonToStrF 100 v

/-- parseNumberFlexible applied to a JSON value, via String(value).  For
a numeric value the string conversion followed by parseFloat returns the
number itself (the JS number-to-string round trip is exact and the
cleaning steps do not touch the digits, sign, point or exponent mark of
a number string), so the numeric case is direct. -/
def parseNumJSON : JSON → Option JNum
  | .num q => some q
  | .str s => parseNumberFlexible s
  | .null => none
  | .bool _ => none
  | v => parseNumberFlexible (jsonToStr v)

/-- Lines 129-130: arrays are themselves the node list; an object with a
truthy graph field contributes that field, which must be an array (the
subsequent filter call throws a TypeError on any non-array, caught by the
surrounding try, which aborts the whole extraction); anything else is
wrapped as a single node. -/
def flattenLD (v : JSON) : Except Unit (List JSON) :=
  match v with
  | .arr l => .ok l
  | .obj fields =>
    (match objGet fields "@graph" with
     | some g =>
       if jsTruthy g then
         (match g with
          | .arr l => .ok l
          | _ => .error ())
       else .ok [v]
     | none => .ok [v])
  | _ => .ok [v]

/-- The declared type of a node as tested by the regexes of lines 134,
137 and 142: an array type is joined with commas and is truthy when the
joined string is non-empty; any other value is tested after string
coercion when truthy. -/
def typeTest (pat : String) (tv : JSON) : Bool :=
  match tv with
  | .arr l =>
    let s := jsonToStr (.arr l)
    s ≠ "" && containsCI pat.data s.data
  | v => jsTruthy v && containsCI pat.data (jsonToStr v).data

/-- The pushIf of line 136: push the parsed value of a field when the
field value is truthy (undefined, null, zero, empty strings and false are
all skipped by the truthiness guard). -/
def pushTruthy (fields : List (String × JSON)) (k : String) : List JNum :=
  match objGet fields k with
  | some v =>
    if jsTruthy v then
      (match parseNumJSON v with
       | some n => [n]
       | none => [])
    else []
  | none => []

def offersAsList : JSON → List JSON
  | .arr l => l
  | v => [v]

/-- Lines 148-153: for one entry of offers, collect price, lowPrice and
highPrice when present and not null (property access on a non-object
yields undefined and contributes nothing). -/
def offerEntryPrices (off : JSON) : List JNum :=
  if jsTruthy off then
    match off with
    | .obj ofs =>
      (match objGet ofs "price" with
       | some .null => []
       | some v => (match parseNumJSON v with | some n => [n] | none => [])
       | none => []) ++
      (match objGet ofs "lowPrice" with
       | some .null => []
       | some v => (match parseNumJSON v with | some n => [n] | none => [])
       | none => []) ++
      (match objGet ofs "highPrice" with
       | some .null => []
       | some v => (match parseNumJSON v with | some n => [n] | none => [])
       | none => [])
    | _ => []
  else []

/-- Lines 132-157: the prices one node contributes.  Only objects carry
properties (the loop skips primitives via the typeof test, and arrays,
though of typeof object, have none of the accessed properties). -/
def nodePrices (node : JSON) : List JNum :=
  match node with
  | .obj fields =>
    (match objGet fields "@type" with
     | some tv =>
       (if typeTest "Offer" tv then
          pushTruthy fields "price" ++ pushTruthy fields "lowPrice" ++
            pushTruthy fields "highPrice"
        else []) ++
       (if typeTest "Product" tv then
          (match objGet fields "offers" with
           | some ov =>
             if jsTruthy ov then (offersAsList ov).flatMap offerEntryPrices
             else []
           | none => [])
        else [])
     | none => [])
  | _ => []

/-- The values one parsed script block contributes, or an error when the
flattening step throws. -/
def ldBlockOutcome : Option JSON → Except Unit (List JNum)
  | none => .ok []
  | some v =>
    match flattenLD v with
    | .error _ => .error ()
    | .ok nodes => .ok ((nodes.filter jsTruthy).flatMap nodePrices)

/-- tryJSONLD over the parse outcomes of the linked-data script blocks in
document order: skip blocks that fail to parse or contribute nothing,
return the minimum of the values of the first block that contributes any
(the return sits inside the per-script loop), and abort with null when a
block makes the flattening throw. -/
def tryJSONLD : List (Option JSON) → Option JNum
  | [] => none
  | s :: rest =>
    match ldBlockOutcome s with
    | .error _ => none
    | .ok [] => tryJSONLD rest
    | .ok (h :: t) => some (foldMin (h :: t))

/-! ### tryEmbeddedJSON (tracker.js lines 168-197)

Three global case-insensitive regexes scan every script text.  The word
boundary assertions are modelled by threading whether the previous
character is a word character through the scan. -/

/-- A word boundary after a match: the rest is empty or starts with a
non-word character. -/
def boundaryOK : List Char → Bool
  | [] => true
  | c :: _ => !isWordChar c

/-- The numeric group digits-with-optional-fraction followed by a word
boundary.  Backtracking resolves deterministically: a shorter digit run
is followed by a digit (a word character), so only the maximal runs are
viable, and when the full fraction is not followed by a boundary the
capture falls back to the integer part, whose following dot is a non-word
character. -/
def numWithB (l : List Char) : Option (List Char × List Char) :=
  let p := l.span Char.isDigit
  if p.1 = [] then none else
  match p.2 with
  | '.' :: r2 =>
    let f := r2.span Char.isDigit
    if f.1 ≠ [] ∧ boundaryOK f.2 then some (p.1 ++ '.' :: f.1, f.2)
    else some (p.1, p.2)
  | r => if boundaryOK r then some (p.1, r) else none

/-- The inner part of the first embedded regex after the key: optional
whitespace, a colon, optional whitespace, an opening brace. -/
def afterAV (r : List Char) : Option (List Char × List Char) :=
  let r1 := r.dropWhile isJsWs
  match r1 with
  | ':' :: r2 => numWithB (r2.dropWhile isJsWs)
  | _ => none

/-- The amount-or-value alternative (no word boundary precedes it inside
the brace of the first regex); the alternatives start with distinct
letters, so a simple ordered try is exact. -/
def tryAmountVal (l : List Char) : Option (List Char × List Char) :=
  match matchTokCI ['a','m','o','u','n','t'] l with
  | some r => afterAV r
  | none =>
    match matchTokCI ['v','a','l','u','e'] l with
    | some r => afterAV r
    | none => none

/-- The lazy scan inside the brace: try the amount-or-value tail at each
position, consuming only characters other than the closing brace. -/
def innerScanF : ℕ → List Char → Option (List Char × List Char)
  | 0, _ => none
  | _ + 1, [] => none
  | fuel + 1, c :: t =>
    match tryAmountVal (c :: t) with
    | some res => some res
    | none => if c = '\x7d' then none else innerScanF fuel t

/-- Key alternatives with a trailing word boundary; the alternatives
start with distinct letters. -/
def matchKeyAlts : List (List Char) → List Char → Option (List Char)
  | [], _ => none
  | k :: ks, l =>
    match matchTokCI k l with
    | some r => if boundaryOK r then some r else matchKeyAlts ks l
    | none => matchKeyAlts ks l

def keyAlts1 : List (List Char) :=
  [['f','i','n','a','l','P','r','i','c','e'],
   ['s','e','l','l','i','n','g','P','r','i','c','e'],
   ['m','a','r','k','e','t','p','l','a','c','e','S','e','l','l','e','r','S','e','l','l','i','n','g','P','r','i','c','e'],
   ['p','r','i','c','e']]

/-- One attempt of the first embedded regex at the current position
(after the leading word boundary has been checked by the caller): a
price-like key, a colon, an opening brace, then lazily an amount-or-value
field with a numeric value. -/
def tryRe1At (l : List Char) : Option (List Char × List Char) :=
  match matchKeyAlts keyAlts1 l with
  | some r =>
    let r1 := r.dropWhile isJsWs
    (match r1 with
     | ':' :: r2 =>
       let r3 := r2.dropWhile isJsWs
       (match r3 with
        | '\x7b' :: r4 => innerScanF r4.length r4
        | _ => none)
     | _ => none)
  | none => none

def re1ScanF : ℕ → Bool → List Char → List JNum
  | 0, _, _ => []
  | _ + 1, _, [] => []
  | fuel + 1, prevW, c :: t =>
    match (if !prevW then tryRe1At (c :: t) else none) with
    | some (cap, rest) =>
      (match parseNumberFlexibleL cap with
       | some q => [q]
       | none => []) ++ re1ScanF fuel true rest
    | none => re1ScanF fuel (isWordChar c) t

/-- The shared tail of the second and third embedded regexes after their
key and its boundary: optional whitespace, colon, optional whitespace, an
optional quote, at least three digits with an optional one-or-two-digit
fraction, an optional closing quote.  Returns the capture, the rest, and
whether the last consumed character is a word character. -/
def qNumTail (r : List Char) : Option (List Char × List Char × Bool) :=
  let r1 := r.dropWhile isJsWs
  match r1 with
  | ':' :: r2 =>
    let r3 := r2.dropWhile isJsWs
    let r4 := match r3 with | '"' :: rr => rr | _ => r3
    let p := r4.span Char.isDigit
    if p.1.length < 3 then none else
    let capRest : List Char × List Char :=
      match p.2 with
      | '.' :: r5 =>
        let f := r5.span Char.isDigit
        if f.1 = [] then (p.1, p.2)
        else (p.1 ++ '.' :: f.1.take 2, f.1.drop 2 ++ f.2)
      | _ => (p.1, p.2)
    (match capRest.2 with
     | '"' :: rr => some (capRest.1, rr, false)
     | _ => some (capRest.1, capRest.2, true))
  | _ => none

def tryRe2At (l : List Char) : Option (List Char × List Char × Bool) :=
  match matchTokCI ['p','r','i','c','e'] l with
  | some r => if boundaryOK r then qNumTail r else none
  | none => none

def keyAltsAV : List (List Char) :=
  [['a','m','o','u','n','t'], ['v','a','l','u','e']]

def tryRe3At (l : List Char) : Option (List Char × List Char × Bool) :=
  match matchKeyAlts keyAltsAV l with
  | some r => qNumTail r
  | none => none

def re2ScanF : ℕ → Bool → List Char → List JNum
  | 0, _, _ => []
  | _ + 1, _, [] => []
  | fuel + 1, prevW, c :: t =>
    match (if !prevW then tryRe2At (c :: t) else none) with
    | some (cap, rest, w) =>
      (match parseNumberFlexibleL cap with
       | some q => [q]
       | none => []) ++ re2ScanF fuel w rest
    | none => re2ScanF fuel (isWordChar c) t

def re3ScanF : ℕ → Bool → List Char → List JNum
  | 0, _, _ => []
  | _ + 1, _, [] => []
  | fuel + 1, prevW, c :: t =>
    match (if !prevW then tryRe3At (c :: t) else none) with
    | some (cap, rest, w) =>
      (match parseNumberFlexibleL cap with
       | some q => [q]
       | none => []) ++ re3ScanF fuel w rest
    | none => re3ScanF fuel (isWordChar c) t

/-- The values one script text contributes, in push order: all matches of
the first regex, then of the second, then of the third. -/
def embeddedPricesOfText (l : List Char) : List JNum :=
  re1ScanF l.length false l ++ re2ScanF l.length false l ++ re3ScanF l.length false l

/-- tryEmbeddedJSON collects over all script texts (the empty texts the
code filters out contribute nothing anyway) and returns the minimum of
everything found. -/
def tryEmbeddedJSON (scripts : List String) : Option JNum :=
  match scripts.flatMap (fun s => embeddedPricesOfText s.data) with
  | [] => none
  | h :: t => some (foldMin (h :: t))

/-! ### The label-guided scan (tracker.js lines 332-337)

The pattern: one of Deal Price, Price, MRP (case-insensitively, no word
boundaries), optional whitespace, an optional colon or dash, optional
whitespace, then the capture: an optional currency symbol followed by at
least one character among whitespace, digits, comma and dot.  Whitespace
is in the capture class, so on failure the whitespace runs donate
characters back; the backtracking tries the choice points in regex order:
shrink the second whitespace run first, then drop the separator, then
shrink the first run. -/

def capClassChar (c : Char) : Bool := isJsWs c || c.isDigit || c = ',' || c = '.'

def wsPrefixLen (l : List Char) : ℕ := (l.takeWhile isJsWs).length

/-- The capture at an exact start position: an optional currency symbol
taken greedily, then a maximal non-empty class run (when the greedy
currency symbol is not followed by a class character the regex retries
without it, but the symbol itself is not a class character, so the
position fails). -/
def capAt (l : List Char) : Option (List Char) :=
  match l with
  | [] => none
  | c :: t =>
    if currencySingles.contains c then
      (let run := t.takeWhile capClassChar
       if run = [] then none else some (c :: run))
    else
      (let run := (c :: t).takeWhile capClassChar
       if run = [] then none else some run)

/-- Try the capture with the second whitespace run at length k, counting
down. -/
def tryCDown (l : List Char) : ℕ → Option (List Char)
  | 0 => capAt l
  | k + 1 =>
    match capAt (l.drop (k + 1)) with
    | some cap => some cap
    | none => tryCDown l k

/-- The optional separator, preferring to consume it. -/
def tryB (l : List Char) : Option (List Char) :=
  match l with
  | c :: t =>
    if c = ':' ∨ c = '-' then
      (match tryCDown t (wsPrefixLen t) with
       | some cap => some cap
       | none => tryCDown l (wsPrefixLen l))
    else tryCDown l (wsPrefixLen l)
  | [] => none

/-- The first whitespace run at length k, counting down. -/
def tryADown (l : List Char) : ℕ → Option (List Char)
  | 0 => tryB l
  | k + 1 =>
    match tryB (l.drop (k + 1)) with
    | some cap => some cap
    | none => tryADown l k

def matchAfterLabel (l : List Char) : Option (List Char) := tryADown l (wsPrefixLen l)

def labelAlts : List (List Char) :=
  [['D','e','a','l',' ','P','r','i','c','e'], ['P','r','i','c','e'], ['M','R','P']]

def tryLabelAlts : List (List Char) → List Char → Option (List Char)
  | [], _ => none
  | a :: rest, l =>
    match matchTokCI a l with
    | some r =>
      (match matchAfterLabel r with
       | some cap => some cap
       | none => tryLabelAlts rest l)
    | none => tryLabelAlts rest l

def labelScanF : ℕ → List Char → Option (List Char)
  | 0, _ => none
  | _ + 1, [] => none
  | fuel + 1, c :: t =>
    match tryLabelAlts labelAlts (c :: t) with
    | some cap => some cap
    | none => labelScanF fuel t

/-- The first match of the label pattern over the visible text, returning
the captured group. -/
def labelScan (s : String) : Option (List Char) := labelScanF s.data.length s.data

/-! ### domainSpecificSelectors (tracker.js lines 199-279) -/

def amazonSelectors : List String :=
  ["#corePrice_feature_div .a-price .a-offscreen",
   "#priceblock_ourprice",
   "#priceblock_dealprice",
   "#priceblock_saleprice",
   ".a-price .a-offscreen",
   "span.a-price-whole"]

def flipkartSelectors : List String :=
  ["._30jeq3._16Jk6d",
   "._30jeq3",
   "._16Jk6d",
   "._25b18c ._30jeq3",
   "div[class*=\x27price\x27] span[class*=\x27_30jeq3\x27]",
   "meta[itemprop=\x27price\x27]",
   "meta[property=\x27og:price:amount\x27]"]

def myntraSelectors : List String :=
  [".pdp-price .pdp-price_value", "span.pdp-price"]

def ajioSelectors : List String :=
  [".prod-sp", ".price-now", ".product-price .price"]

def cromaSelectors : List String :=
  ["#pdp-product-price", ".pdpPrice", "[data-amount]"]

def relianceSelectors : List String :=
  [".pdp__price", "[itemprop=\x27price\x27]"]

def tatacliqSelectors : List String :=
  ["[data-test=\x27pdpSalePrice\x27]", "[data-test=\x27pdpMrpPrice\x27]"]

def snapdealSelectors : List String :=
  [".payBlkBig", "[itemprop=\x27price\x27]"]

def meeshoSelectors : List String :=
  ["[class*=\x27price\x27]", "[itemprop=\x27price\x27]"]

def genericSelectors : List String :=
  ["meta[itemprop=\x27price\x27]",
   "meta[property=\x27product:price:amount\x27]",
   "meta[property=\x27og:price:amount\x27]",
   "meta[name=\x27twitter:data1\x27]",
   "[itemprop=\x27price\x27]",
   ".price, .product-price, . Price, .productPrice",
   "span[class*=\x27price\x27], div[class*=\x27price\x27]",
   "#price"]

def hostHas (pat : String) (h : List Char) : Bool := containsSubL pat.data h

/-- The ordered selector list for a hostname: the matching retailer
blocks in source order, then the generic selectors. -/
def domainSpecificSelectors (hostname : String) : List String :=
  let h := hostname.data.map Char.toLower
  (if hostHas "amazon" h then amazonSelectors else []) ++
  (if hostHas "flipkart" h then flipkartSelectors else []) ++
  (if hostHas "myntra" h then myntraSelectors else []) ++
  (if hostHas "ajio" h then ajioSelectors else []) ++
  (if hostHas "croma" h then cromaSelectors else []) ++
  (if hostHas "reliancedigital" h then relianceSelectors else []) ++
  (if hostHas "tatacliq" h then tatacliqSelectors else []) ++
  (if hostHas "snapdeal" h then snapdealSelectors else []) ++
  (if hostHas "meesho" h then meeshoSelectors else []) ++
  genericSelectors

/-! ### extractFromSelectors (tracker.js lines 281-299)

The DOM lookup is a cheerio call; the document model provides, per
selector, the text the code reads off the first matching element (its
content attribute, else its data-amount attribute, else its text), and
none when no element matches. -/

def optToList : Option JNum → List JNum
  | some q => [q]
  | none => []

def extractFromSelectors (selText : String → Option String)
    (twitter : Option String) (selectors : List String) : List JNum :=
  (selectors.flatMap (fun sel =>
    match selText sel with
    | none => []
    | some txt => optToList (extractPriceFromText txt) ++ optToList (parseNumberFlexible txt))) ++
  (match twitter with
   | some t => if t ≠ "" then extractAllCurrencyPrices t else []
   | none => [])

/-! ### extractTitle (tracker.js lines 111-119) -/

def jsTrimStr (s : String) : String := String.mk (jsTrimL s.data)

def extractTitleTail (titleText h1Text : String) : Option String :=
  if titleText ≠ "" then some (jsTrimStr titleText)
  else if h1Text ≠ "" then some (jsTrimStr h1Text)
  else none

/-- The document model provides the Open Graph title attribute (none when
the meta tag or its attribute is absent), the text of the first title
element and the text of the first level-one heading (cheerio returns the
empty string for an empty selection, and the code treats empty strings as
absent via truthiness). -/
def extractTitle (ogTitle : Option String) (titleText h1Text : String) : Option String :=
  match ogTitle with
  | some og => if og ≠ "" then some (jsTrimStr og) else extractTitleTail titleText h1Text
  | none => extractTitleTail titleText h1Text

/-! ### The document model and the pipeline (tracker.js lines 301-382) -/

/-- One fetched and parsed document, carrying the outcomes of every DOM
query the engine performs: the raw html text, the per-selector first
element text, the twitter data meta content, the parse outcome of each
linked-data script block in document order, the text of every script
block, the visible body text, and the three title sources. -/
structure Doc where
  html : String
  selectorText : String → Option String
  twitterData1 : Option String
  ldScripts : List (Option JSON)
  scriptTexts : List String
  bodyText : String
  ogTitle : Option String
  titleText : String
  h1Text : String

/-- The currency hint computed at every call site of pickBestPrice:
INR when the scanned text contains the rupee sign, empty otherwise. -/
def rupeeHintOf (t : String) : String := if t.data.contains '₹' then "INR" else ""

/-- The pipeline of getPrice after fetch and parse (lines 307-339),
stage by stage, each terminal on success. -/
def getPriceCore (host : String) (d : Doc) : Option JNum :=
  match pickBestPrice
      (extractFromSelectors d.selectorText d.twitterData1 (domainSpecificSelectors host))
      (rupeeHintOf d.html) with
  | some p => some p
  | none =>
  match tryJSONLD d.ldScripts with
  | some p => some p
  | none =>
  match tryEmbeddedJSON d.scriptTexts with
  | some p => some p
  | none =>
  match pickBestPrice (extractAllCurrencyPrices d.html) (rupeeHintOf d.html) with
  | some p => some p
  | none =>
  match pickBestPrice (extractAllCurrencyPrices d.bodyText) (rupeeHintOf d.bodyText) with
  | some p => some p
  | none =>
  match labelScan d.bodyText with
  | some cap =>
    (match parseNumberFlexibleL cap with
     | some n => some n
     | none => none)
  | none => none

/-- getPrice at the boundary: the fetch outcome and the URL parse outcome
(hostname) come in as inputs; a fetch failure or a URL constructor throw
is caught by the surrounding try and surfaces as null. -/
def getPriceModel (urlHost : Option String) (fetched : Except String Doc) : Option JNum :=
  match fetched with
  | .error _ => none
  | .ok d =>
    match urlHost with
    | none => none
    | some host => getPriceCore host d

/-- The price computation inlined in getProductInfo (lines 353-376),
transcribed independently of getPriceCore. -/
def productInfoPrice (host : String) (d : Doc) : Option JNum :=
  match pickBestPrice
      (extractFromSelectors d.selectorText d.twitterData1 (domainSpecificSelectors host))
      (rupeeHintOf d.html) with
  | some p => some p
  | none =>
  match tryJSONLD d.ldScripts with
  | some p => some p
  | none =>
  match tryEmbeddedJSON d.scriptTexts with
  | some p => some p
  | none =>
  match pickBestPrice (extractAllCurrencyPrices d.html) (rupeeHintOf d.html) with
  | some p => some p
  | none =>
  match pickBestPrice (extractAllCurrencyPrices d.bodyText) (rupeeHintOf d.bodyText) with
  | some p => some p
  | none =>
  match labelScan d.bodyText with
  | some cap =>
    (match parseNumberFlexibleL cap with
     | some n => some n
     | none => none)
  | none => none

/-- getProductInfo (lines 346-382): one fetch, one parse, title and price
against the same document; a fetch failure or URL throw yields the pair
of nulls (the title already computed is discarded when the URL
constructor throws, because the catch returns both fields null). -/
def getProductInfoModel (urlHost : Option String) (fetched : Except String Doc) :
    Option JNum × Option String :=
  match fetched with
  | .error _ => (none, none)
  | .ok d =>
    match urlHost with
    | none => (none, none)
    | some host => (productInfoPrice host d, extractTitle d.ogTitle d.titleText d.h1Text)

/-! ### The pipeline stages named individually (for the pipeline-order
claim) -/

def priceStage1 (host : String) (d : Doc) : Option JNum :=
  pickBestPrice
    (extractFromSelectors d.selectorText d.twitterData1 (domainSpecificSelectors host))
    (rupeeHintOf d.html)

def priceStage2 (d : Doc) : Option JNum := tryJSONLD d.ldScripts

def priceStage3 (d : Doc) : Option JNum := tryEmbeddedJSON d.scriptTexts

def priceStage4 (d : Doc) : Option JNum :=
  pickBestPrice (extractAllCurrencyPrices d.html) (rupeeHintOf d.html)

def priceStage5 (d : Doc) : Option JNum :=
  pickBestPrice (extractAllCurrencyPrices d.bodyText) (rupeeHintOf d.bodyText)

def priceStage6 (d : Doc) : Option JNum :=
  match labelScan d.bodyText with
  | some cap => parseNumberFlexibleL cap
  | none => none

/-- First non-null entry of a list of stage results. -/
def firstSome : List (Option JNum) → Option JNum
  | [] => none
  | none :: t => firstSome t
  | some x :: _ => some x

/-! ### Definitions written from the words of the specification

These are the comparison points for the refinement-style claims; each is
written from the sentence of the specification it formalises, not from
the source. -/

/-- The split at the last dot: the part before it and the part after it. -/
def lastDotSplit : List Char → Option (List Char × List Char)
  | [] => none
  | c :: t =>
    match lastDotSplit t with
    | some (b, a) => some (c :: b, a)
    | none => if c = '.' then some ([], t) else none

def hasDot (l : List Char) : Bool := l.any (fun c => c == '.')

/-- The dot rule as the specification words it: when more than one
literal dot remains, all but the last are grouping separators (removed)
and the last is the decimal point (kept). -/
def specCollapse (l : List Char) : List Char :=
  match lastDotSplit l with
  | some (b, a) => if hasDot b then b.filter (fun c => c != '.') ++ '.' :: a else l
  | none => l

/-- The numeric normalizer as the specification words it: strip currency
symbols and codes and whitespace, remove all commas, apply the
last-dot-is-decimal rule, parse as a floating-point number, no value when
the cleaned string does not parse to a finite number. -/
def parseNumberSpecL (l : List Char) : Option JNum :=
  if l = [] then none else
  parseFloatQ (specCollapse (removeCommas (removeWs (stripCurrency (jsTrimL l)))))

def parseNumberSpec (s : String) : Option JNum := parseNumberSpecL s.data

/-- The currency-hint detection as the resolution claim words it: the
rupee sign or the letters INR anywhere in the scanned text. -/
def claimC3Detect (t : String) : Bool :=
  t.data.contains '₹' || containsSubL ['I', 'N', 'R'] t.data

/-- The value occurring most frequently in the pool, ties broken by the
smaller value (the resolution rule as the specification words it). -/
def mostFrequentSmallest (pool : List JNum) : Option JNum :=
  match pool with
  | [] => none
  | h :: t =>
    some ((sortCnt (fun n => (h :: t).countP (fun x => JNum.beqVal x n)) (h :: t)).headD ⟨0, 0⟩)

/-- Candidate resolution as the claim words it: positive candidates,
the currency-aware floor chosen by the detection over the scanned text,
fall back to the unfiltered minimum when filtering empties the pool,
otherwise the most frequent value with ties broken downward. -/
def claimC3Resolve (t : String) (cands : List JNum) : Option JNum :=
  let pos := cands.filter JNum.posVal
  if pos = [] then none else
  let fl : JNum := if claimC3Detect t then ⟨50, 0⟩ else ⟨5, 1⟩
  let survivors := pos.filter (fun n => JNum.leVal fl n)
  if survivors = [] then some (foldMin pos) else mostFrequentSmallest survivors

/-- The JSON-LD rule as the claim words it: collect over every block that
parses and return the minimum of all collected numbers across all
blocks. -/
def specC5AllBlocksMin (scripts : List (Option JSON)) : Option JNum :=
  match scripts.flatMap (fun s =>
    match ldBlockOutcome s with
    | .ok l => l
    | .error _ => []) with
  | [] => none
  | h :: t => some (foldMin (h :: t))

/-! ### Value equality and order: basic facts -/

theorem beqVal_refl (a : JNum) : JNum.beqVal a a = true := by
  unfold JNum.beqVal; exact beq_self_eq_true _

theorem beqVal_symm (a b : JNum) : JNum.beqVal a b = JNum.beqVal b a := by
  unfold JNum.beqVal
  by_cases h : a.m * pow10 b.e = b.m * pow10 a.e
  · simp [h]
  · have h2 : b.m * pow10 a.e ≠ a.m * pow10 b.e := fun hh => h hh.symm
    simp [h, h2]

theorem leVal_total (a b : JNum) : JNum.leVal a b = true ∨ JNum.leVal b a = true := by
  rcases le_total (a.toRat) (b.toRat) with h | h
  · exact Or.inl ((toRat_le_iff a b).2 h)
  · exact Or.inr ((toRat_le_iff b a).2 h)

theorem leVal_false_lt {a b : JNum} (h : JNum.leVal a b = false) : b.toRat < a.toRat := by
  by_contra hc
  push_neg at hc
  have h2 := (toRat_le_iff a b).2 hc
  rw [h] at h2
  cases h2

/-! ### jsDedup: members, completeness, pairwise distinct values -/

theorem jsDedupAux_subset (l : List JNum) :
    ∀ seen x, x ∈ jsDedupAux seen l → x ∈ l := by
  induction l with
  | nil => intro seen x h; simp [jsDedupAux] at h
  | cons h t ih =>
    intro seen x hx
    unfold jsDedupAux at hx
    by_cases hs : (seen.any (fun y => JNum.beqVal y h)) = true
    · rw [if_pos hs] at hx
      exact List.mem_cons_of_mem _ (ih seen x hx)
    · rw [if_neg hs] at hx
      rcases List.mem_cons.1 hx with rfl | hx2
      · exact List.mem_cons_self _ _
      · exact List.mem_cons_of_mem _ (ih (h :: seen) x hx2)

theorem jsDedup_subset {l : List JNum} {x : JNum} (h : x ∈ jsDedup l) : x ∈ l :=
  jsDedupAux_subset l [] x h

theorem jsDedup_nil_iff (l : List JNum) : jsDedup l = [] ↔ l = [] := by
  cases l with
  | nil => simp [jsDedup, jsDedupAux]
  | cons h t =>
    constructor
    · intro hc
      exfalso
      unfold jsDedup jsDedupAux at hc
      simp at hc
    · intro hc
      exact absurd hc (by simp)

theorem jsDedupAux_complete (l : List JNum) :
    ∀ seen y, y ∈ l →
      (∃ z ∈ jsDedupAux seen l, JNum.beqVal z y = true) ∨
      (∃ s ∈ seen, JNum.beqVal s y = true) := by
  induction l with
  | nil => intro seen y h; simp at h
  | cons h t ih =>
    intro seen y hy
    unfold jsDedupAux
    by_cases hs : (seen.any (fun z => JNum.beqVal z h)) = true
    · rw [if_pos hs]
      rcases List.mem_cons.1 hy with rfl | hy2
      · rcases List.any_eq_true.1 hs with ⟨s, hsm, hb⟩
        exact Or.inr ⟨s, hsm, hb⟩
      · exact ih seen y hy2
    · rw [if_neg hs]
      rcases List.mem_cons.1 hy with rfl | hy2
      · exact Or.inl ⟨y, List.mem_cons_self _ _, beqVal_refl y⟩
      · rcases ih (h :: seen) y hy2 with ⟨z, hz, hb⟩ | ⟨s, hsm, hb⟩
        · exact Or.inl ⟨z, List.mem_cons_of_mem _ hz, hb⟩
        · rcases List.mem_cons.1 hsm with rfl | hs2
          · exact Or.inl ⟨s, List.mem_cons_self _ _, hb⟩
          · exact Or.inr ⟨s, hs2, hb⟩

theorem jsDedup_complete {l : List JNum} {y : JNum} (h : y ∈ l) :
    ∃ z ∈ jsDedup l, JNum.beqVal z y = true := by
  rcases jsDedupAux_complete l [] y h with h2 | ⟨s, hs, _⟩
  · exact h2
  · simp at hs

theorem jsDedupAux_seen_not (l : List JNum) :
    ∀ seen s, s ∈ seen → ∀ z ∈ jsDedupAux seen l, JNum.beqVal s z = false := by
  induction l with
  | nil => intro seen s _ z hz; simp [jsDedupAux] at hz
  | cons h t ih =>
    intro seen s hsm z hz
    unfold jsDedupAux at hz
    by_cases hs : (seen.any (fun y => JNum.beqVal y h)) = true
    · rw [if_pos hs] at hz
      exact ih seen s hsm z hz
    · rw [if_neg hs] at hz
      rcases List.mem_cons.1 hz with rfl | hz2
      · have hne : JNum.beqVal s z ≠ true := by
          intro hb
          exact hs (List.any_eq_true.2 ⟨s, hsm, hb⟩)
        exact Bool.eq_false_iff.2 hne
      · exact ih (h :: seen) s (List.mem_cons_of_mem _ hsm) z hz2

theorem jsDedupAux_pairwise (l : List JNum) :
    ∀ seen, (jsDedupAux seen l).Pairwise (fun a b => JNum.beqVal a b = false) := by
  induction l with
  | nil => intro seen; simp [jsDedupAux]
  | cons h t ih =>
    intro seen
    unfold jsDedupAux
    by_cases hs : (seen.any (fun y => JNum.beqVal y h)) = true
    · rw [if_pos hs]; exact ih seen
    · rw [if_neg hs]
      refine List.pairwise_cons.2 ⟨?_, ih (h :: seen)⟩
      intro b hb
      exact jsDedupAux_seen_not t (h :: seen) h (List.mem_cons_self _ _) b hb

theorem jsDedup_pairwise (l : List JNum) :
    (jsDedup l).Pairwise (fun a b => JNum.beqVal a b = false) :=
  jsDedupAux_pairwise l []

/-- In a list of pairwise distinct values, a member's value occurs
exactly once. -/
theorem countP_eq_one_of_pairwise {l : List JNum}
    (hp : l.Pairwise (fun a b => JNum.beqVal a b = false)) {n : JNum} (hn : n ∈ l) :
    l.countP (fun x => JNum.beqVal x n) = 1 := by
  induction l with
  | nil => simp at hn
  | cons h t ih =>
    rcases List.pairwise_cons.1 hp with ⟨hh, ht⟩
    rcases List.mem_cons.1 hn with rfl | hn2
    · have ht0 : t.countP (fun x => JNum.beqVal x n) = 0 := by
        rw [List.countP_eq_zero]
        intro a ha
        rw [beqVal_symm]
        simp [hh a ha]
      simp [List.countP_cons, ht0, beqVal_refl]
    · have hzn : JNum.beqVal h n = false := hh n hn2
      have hrec := ih ht hn2
      simp [List.countP_cons, hzn, hrec]

/-! ### foldMin: membership and lower bound -/

theorem foldl_minJ_mem (t : List JNum) :
    ∀ acc, t.foldl JNum.minJ acc = acc ∨ t.foldl JNum.minJ acc ∈ t := by
  induction t with
  | nil => intro acc; exact Or.inl rfl
  | cons x t2 ih =>
    intro acc
    rcases ih (JNum.minJ acc x) with h | h
    · rcases minJ_cases acc x with hm | hm
      · rw [List.foldl_cons, h, hm]; exact Or.inl rfl
      · rw [List.foldl_cons, h, hm]; exact Or.inr (List.mem_cons_self _ _)
    · exact Or.inr (List.mem_cons_of_mem _ (by rw [List.foldl_cons]; exact h))

theorem foldl_minJ_le_acc (t : List JNum) :
    ∀ acc, (t.foldl JNum.minJ acc).toRat ≤ acc.toRat := by
  induction t with
  | nil => intro acc; exact le_refl _
  | cons x t2 ih =>
    intro acc
    rw [List.foldl_cons]
    exact le_trans (ih (JNum.minJ acc x)) (minJ_le_left acc x)

theorem foldl_minJ_le_mem (t : List JNum) :
    ∀ acc x, x ∈ t → (t.foldl JNum.minJ acc).toRat ≤ x.toRat := by
  induction t with
  | nil => intro acc x hx; simp at hx
  | cons y t2 ih =>
    intro acc x hx
    rw [List.foldl_cons]
    rcases List.mem_cons.1 hx with rfl | hx2
    · exact le_trans (foldl_minJ_le_acc t2 (JNum.minJ acc x)) (minJ_le_right acc x)
    · exact ih (JNum.minJ acc y) x hx2

theorem foldMin_mem {l : List JNum} (h : l ≠ []) : foldMin l ∈ l := by
  cases l with
  | nil => exact absurd rfl h
  | cons x t =>
    show t.foldl JNum.minJ x ∈ x :: t
    rcases foldl_minJ_mem t x with h2 | h2
    · rw [h2]; exact List.mem_cons_self _ _
    · exact List.mem_cons_of_mem _ h2

theorem foldMin_le {l : List JNum} {x : JNum} (hx : x ∈ l) :
    (foldMin l).toRat ≤ x.toRat := by
  cases l with
  | nil => simp at hx
  | cons y t =>
    show (t.foldl JNum.minJ y).toRat ≤ x.toRat
    rcases List.mem_cons.1 hx with rfl | hx2
    · exact foldl_minJ_le_acc t x
    · exact foldl_minJ_le_mem t y x hx2

/-! ### sortCnt: membership and minimality of the head when every count
is one -/

theorem insertCnt_mem (cnt : JNum → ℕ) (x : JNum) (l : List JNum) :
    ∀ y, y ∈ insertCnt cnt x l ↔ y = x ∨ y ∈ l := by
  induction l with
  | nil => intro y; simp [insertCnt]
  | cons z t ih =>
    intro y
    unfold insertCnt
    by_cases h : cmpLe cnt x z = true
    · rw [if_pos h]; simp [List.mem_cons]
    · rw [if_neg h]
      simp only [List.mem_cons, ih y]
      tauto

theorem sortCnt_mem (cnt : JNum → ℕ) (l : List JNum) :
    ∀ y, y ∈ sortCnt cnt l ↔ y ∈ l := by
  induction l with
  | nil => intro y; simp [sortCnt]
  | cons x t ih =>
    intro y
    unfold sortCnt
    rw [insertCnt_mem, List.mem_cons, ih y]

theorem insertCnt_ne_nil (cnt : JNum → ℕ) (x : JNum) (l : List JNum) :
    insertCnt cnt x l ≠ [] := by
  cases l with
  | nil => simp [insertCnt]
  | cons z t =>
    unfold insertCnt
    by_cases h : cmpLe cnt x z = true
    · rw [if_pos h]; simp
    · rw [if_neg h]; simp

/-- When both counts are one the comparator reduces to the value order. -/
theorem cmpLe_of_counts_one {cnt : JNum → ℕ} {a b : JNum}
    (ha : cnt a = 1) (hb : cnt b = 1) : cmpLe cnt a b = JNum.leVal a b := by
  unfold cmpLe
  rw [ha, hb, if_pos rfl]

/-- The head of the sorted list is a value lower bound when every member
counts once. -/
theorem sortCnt_headD_le (cnt : JNum → ℕ) (l : List JNum)
    (hc : ∀ a ∈ l, cnt a = 1) :
    ∀ x ∈ l, ((sortCnt cnt l).headD ⟨0, 0⟩).toRat ≤ x.toRat := by
  induction l with
  | nil => intro x hx; simp at hx
  | cons y t ih =>
    intro x hx
    unfold sortCnt
    have hct : ∀ a ∈ t, cnt a = 1 := fun a ha => hc a (List.mem_cons_of_mem _ ha)
    cases hst : sortCnt cnt t with
    | nil =>
      have ht : t = [] := by
        by_contra hne
        cases ht2 : t with
        | nil => exact hne ht2
        | cons u v =>
          rw [ht2] at hst
          unfold sortCnt at hst
          exact insertCnt_ne_nil _ _ _ hst
      subst ht
      rcases List.mem_cons.1 hx with rfl | hx2
      · simp [insertCnt]
      · simp at hx2
    | cons z s2 =>
      have hzmem : z ∈ t := by
        have : z ∈ sortCnt cnt t := by rw [hst]; exact List.mem_cons_self _ _
        exact (sortCnt_mem cnt t z).1 this
      unfold insertCnt
      by_cases hcz : cmpLe cnt y z = true
      · rw [if_pos hcz]
        simp only [List.headD_cons]
        have hyz : y.toRat ≤ z.toRat := by
          rw [← toRat_le_iff]
          rw [← cmpLe_of_counts_one (hc y (List.mem_cons_self _ _)) (hc z (List.mem_cons_of_mem _ hzmem))]
          exact hcz
        rcases List.mem_cons.1 hx with rfl | hx2
        · exact le_refl _
        · have := ih hct x hx2
          rw [hst] at this
          simp only [List.headD_cons] at this
          exact le_trans hyz this
      · rw [if_neg hcz]
        simp only [List.headD_cons]
        have hzy : z.toRat ≤ y.toRat := by
          have : JNum.leVal y z = false := by
            rw [← cmpLe_of_counts_one (hc y (List.mem_cons_self _ _)) (hc z (List.mem_cons_of_mem _ hzmem))]
            exact Bool.eq_false_iff.2 hcz
          exact le_of_lt (leVal_false_lt this)
        rcases List.mem_cons.1 hx with rfl | hx2
        · exact hzy
        · have := ih hct x hx2
          rw [hst] at this
          simp only [List.headD_cons] at this
          exact this

/-- The head of the sorted list is a member. -/
theorem sortCnt_headD_mem (cnt : JNum → ℕ) (l : List JNum) (h : l ≠ []) :
    (sortCnt cnt l).headD ⟨0, 0⟩ ∈ l := by
  cases hst : sortCnt cnt l with
  | nil =>
    exfalso
    cases l with
    | nil => exact h rfl
    | cons y t =>
      unfold sortCnt at hst
      exact insertCnt_ne_nil _ _ _ hst
  | cons z s2 =>
    have : z ∈ sortCnt cnt l := by rw [hst]; exact List.mem_cons_self _ _
    have := (sortCnt_mem cnt l z).1 this
    simpa [hst] using this

/-! ### pickBestPrice: characterisation -/

theorem pickBestPrice_eq (cands : List JNum) (hint : String) :
    pickBestPrice cands hint =
      (if jsDedup (cands.filter JNum.posVal) = [] then none
       else if (jsDedup (cands.filter JNum.posVal)).filter
           (fun n => JNum.leVal (floorOf hint) n) = [] then
         some (foldMin (jsDedup (cands.filter JNum.posVal)))
       else
         some ((sortCnt
           (fun n => ((jsDedup (cands.filter JNum.posVal)).filter
             (fun n => JNum.leVal (floorOf hint) n)).countP (fun x => JNum.beqVal x n))
           ((jsDedup (cands.filter JNum.posVal)).filter
             (fun n => JNum.leVal (floorOf hint) n))).headD ⟨0, 0⟩)) := rfl

theorem mem_posFilter_of_mem_uniq {cands : List JNum} {x : JNum}
    (h : x ∈ jsDedup (cands.filter JNum.posVal)) :
    x ∈ cands ∧ JNum.posVal x = true := by
  have h2 := jsDedup_subset h
  exact ⟨(List.mem_filter.1 h2).1, (List.mem_filter.1 h2).2⟩

theorem pickBestPrice_none_iff (cands : List JNum) (hint : String) :
    pickBestPrice cands hint = none ↔ ∀ x ∈ cands, JNum.posVal x = false := by
  constructor
  · intro h
    by_contra hb
    push_neg at hb
    rcases hb with ⟨x, hx, hxp⟩
    have hxpos : JNum.posVal x = true := by
      cases hp : JNum.posVal x with
      | true => rfl
      | false => exact absurd hp hxp
    have hxm : x ∈ cands.filter JNum.posVal := List.mem_filter.2 ⟨hx, hxpos⟩
    have hne : jsDedup (cands.filter JNum.posVal) ≠ [] := by
      intro he
      rcases jsDedup_complete hxm with ⟨z, hz, _⟩
      rw [he] at hz
      simp at hz
    rw [pickBestPrice_eq, if_neg hne] at h
    split_ifs at h
  · intro hall
    have hfe : cands.filter JNum.posVal = [] := by
      rw [List.filter_eq_nil_iff]
      intro a ha
      simp [hall a ha]
    rw [pickBestPrice_eq, if_pos ((jsDedup_nil_iff _).2 hfe)]

theorem pickBestPrice_some_mem {cands : List JNum} {hint : String} {q : JNum}
    (h : pickBestPrice cands hint = some q) :
    q ∈ cands ∧ JNum.posVal q = true := by
  rw [pickBestPrice_eq] at h
  split_ifs at h with h1 h2
  · obtain rfl := Option.some.inj h
    exact mem_posFilter_of_mem_uniq (foldMin_mem h1)
  · obtain rfl := Option.some.inj h
    exact mem_posFilter_of_mem_uniq (List.mem_filter.1 (sortCnt_headD_mem _ _ h2)).1

/-- The winner survives the floor whenever any positive candidate meets
the floor. -/
theorem pickBestPrice_floor {cands : List JNum} {hint : String} {q : JNum}
    (h : pickBestPrice cands hint = some q)
    (hx : ∃ x ∈ cands, JNum.posVal x = true ∧ JNum.leVal (floorOf hint) x = true) :
    JNum.leVal (floorOf hint) q = true := by
  rcases hx with ⟨x, hxc, hxp, hxf⟩
  have hxm : x ∈ cands.filter JNum.posVal := List.mem_filter.2 ⟨hxc, hxp⟩
  rcases jsDedup_complete hxm with ⟨z, hzu, hzb⟩
  have hzf : JNum.leVal (floorOf hint) z = true := by
    rw [toRat_le_iff] at hxf ⊢
    rw [(toRat_beq_iff z x).1 hzb]
    exact hxf
  have hfne : (jsDedup (cands.filter JNum.posVal)).filter
      (fun n => JNum.leVal (floorOf hint) n) ≠ [] := by
    intro he
    have hm : z ∈ (jsDedup (cands.filter JNum.posVal)).filter
        (fun n => JNum.leVal (floorOf hint) n) := List.mem_filter.2 ⟨hzu, hzf⟩
    rw [he] at hm
    simp at hm
  rw [pickBestPrice_eq] at h
  split_ifs at h with h1
  obtain rfl := Option.some.inj h
  exact (List.mem_filter.1 (sortCnt_headD_mem _ _ hfne)).2

/-- The winner is a value lower bound of the positive candidates meeting
the floor. -/
theorem pickBestPrice_min {cands : List JNum} {hint : String} {q : JNum}
    (h : pickBestPrice cands hint = some q) :
    ∀ y ∈ cands, JNum.posVal y = true → JNum.leVal (floorOf hint) y = true →
      q.toRat ≤ y.toRat := by
  intro y hyc hyp hyf
  have hym : y ∈ cands.filter JNum.posVal := List.mem_filter.2 ⟨hyc, hyp⟩
  rcases jsDedup_complete hym with ⟨z, hzu, hzb⟩
  have hzy : z.toRat = y.toRat := (toRat_beq_iff z y).1 hzb
  have hzf : JNum.leVal (floorOf hint) z = true := by
    rw [toRat_le_iff] at hyf ⊢
    rw [hzy]; exact hyf
  have hzfm : z ∈ (jsDedup (cands.filter JNum.posVal)).filter
      (fun n => JNum.leVal (floorOf hint) n) := List.mem_filter.2 ⟨hzu, hzf⟩
  rw [pickBestPrice_eq] at h
  split_ifs at h with h1 h2
  · exfalso
    rw [h2] at hzfm
    simp at hzfm
  · obtain rfl := Option.some.inj h
    have hp : ((jsDedup (cands.filter JNum.posVal)).filter
        (fun n => JNum.leVal (floorOf hint) n)).Pairwise
        (fun a b => JNum.beqVal a b = false) :=
      (jsDedup_pairwise _).sublist (List.filter_sublist _)
    have hcnt : ∀ a ∈ (jsDedup (cands.filter JNum.posVal)).filter
        (fun n => JNum.leVal (floorOf hint) n),
        ((jsDedup (cands.filter JNum.posVal)).filter
          (fun n => JNum.leVal (floorOf hint) n)).countP (fun x => JNum.beqVal x a) = 1 :=
      fun a ha => countP_eq_one_of_pairwise hp ha
    rw [← hzy]
    exact sortCnt_headD_le _ _ hcnt z hzfm

/-- When no positive candidate meets the floor, the winner is a value
lower bound of all positive candidates (the unfiltered-minimum
fallback). -/
theorem pickBestPrice_fallback_min {cands : List JNum} {hint : String} {q : JNum}
    (h : pickBestPrice cands hint = some q)
    (hall : ∀ x ∈ cands, JNum.posVal x = true → JNum.leVal (floorOf hint) x = false) :
    ∀ y ∈ cands, JNum.posVal y = true → q.toRat ≤ y.toRat := by
  intro y hyc hyp
  have hym : y ∈ cands.filter JNum.posVal := List.mem_filter.2 ⟨hyc, hyp⟩
  rcases jsDedup_complete hym with ⟨z, hzu, hzb⟩
  have hzy : z.toRat = y.toRat := (toRat_beq_iff z y).1 hzb
  have hfe : (jsDedup (cands.filter JNum.posVal)).filter
      (fun n => JNum.leVal (floorOf hint) n) = [] := by
    rw [List.filter_eq_nil_iff]
    intro a ha
    rcases mem_posFilter_of_mem_uniq ha with ⟨hac, hap⟩
    simp [hall a hac hap]
  rw [pickBestPrice_eq] at h
  split_ifs at h with h1
  obtain rfl := Option.some.inj h
  rw [← hzy]
  exact foldMin_le hzu

/-! ### The dot rule: the split-and-rejoin of the source equals the
last-dot rule of the specification -/

theorem lastDotSplit_none_iff (l : List Char) : lastDotSplit l = none ↔ '.' ∉ l := by
  induction l with
  | nil => simp [lastDotSplit]
  | cons c t ih =>
    unfold lastDotSplit
    cases hlt : lastDotSplit t with
    | some pair =>
      simp only []
      constructor
      · intro h; cases h
      · intro h
        exfalso
        have : '.' ∉ t := fun hm => h (List.mem_cons_of_mem _ hm)
        rw [ih.2 this] at hlt
        cases hlt
    | none =>
      simp only []
      by_cases hc : c = '.'
      · rw [if_pos hc]
        subst hc
        simp
      · rw [if_neg hc]
        have hnt : '.' ∉ t := ih.1 hlt
        simp [hc, hnt, Ne.symm hc]

theorem splitDots_ne_nil (l : List Char) : splitDots l ≠ [] := by
  cases l with
  | nil => simp [splitDots]
  | cons c t =>
    unfold splitDots
    by_cases hc : c = '.'
    · rw [if_pos hc]; simp
    · rw [if_neg hc]
      cases splitDots t with
      | nil => simp
      | cons h r => simp

theorem splitDots_no_dot {l : List Char} (h : '.' ∉ l) : splitDots l = [l] := by
  induction l with
  | nil => rfl
  | cons c t ih =>
    have hc : c ≠ '.' := fun hcc => h (hcc ▸ List.mem_cons_self _ _)
    have hnt : '.' ∉ t := fun hm => h (List.mem_cons_of_mem _ hm)
    unfold splitDots
    rw [if_neg hc, ih hnt]

theorem splitDots_length (l : List Char) :
    (splitDots l).length = l.count '.' + 1 := by
  induction l with
  | nil => simp [splitDots]
  | cons c t ih =>
    unfold splitDots
    by_cases hc : c = '.'
    · rw [if_pos hc]
      subst hc
      simp [List.count_cons, ih]
    · rw [if_neg hc]
      cases hsp : splitDots t with
      | nil => exact absurd hsp (splitDots_ne_nil t)
      | cons h r =>
        rw [hsp] at ih
        simp only [List.length_cons] at ih ⊢
        have hcnt : List.count '.' (c :: t) = List.count '.' t := by
          simp [List.count_cons, beq_iff_eq, Ne.symm hc]
        rw [hcnt]
        exact ih

theorem lastDotSplit_mem {l : List Char} {b a : List Char}
    (h : lastDotSplit l = some (b, a)) : '.' ∈ l := by
  by_contra hn
  rw [(lastDotSplit_none_iff l).2 hn] at h
  cases h

theorem getLastD_irrel {α : Type} (l : List α) (h : l ≠ []) (d1 d2 : α) :
    l.getLastD d1 = l.getLastD d2 := by
  cases l with
  | nil => exact absurd rfl h
  | cons x t => rfl

theorem dropLast_cons_ne_nil {α : Type} (x : α) {l : List α} (h : l ≠ []) :
    (x :: l).dropLast = x :: l.dropLast := by
  cases l with
  | nil => exact absurd rfl h
  | cons y t => rfl

theorem lastDotSplit_decomp (l : List Char) :
    ∀ b a, lastDotSplit l = some (b, a) → l = b ++ '.' :: a ∧ '.' ∉ a := by
  induction l with
  | nil => intro b a h; cases h
  | cons c t ih =>
    intro b a h
    unfold lastDotSplit at h
    cases hlt : lastDotSplit t with
    | some pair =>
      obtain ⟨b2, a2⟩ := pair
      rw [hlt] at h
      simp only at h
      obtain ⟨hb, ha⟩ := Prod.mk.injEq .. ▸ (Option.some.inj h)
      rcases ih b2 a2 hlt with ⟨hdec, hna⟩
      subst hb; subst ha
      exact ⟨by rw [List.cons_append, ← hdec], hna⟩
    | none =>
      rw [hlt] at h
      simp only at h
      by_cases hc : c = '.'
      · rw [if_pos hc] at h
        obtain ⟨hb, ha⟩ := Prod.mk.injEq .. ▸ (Option.some.inj h)
        subst hb; subst ha
        subst hc
        exact ⟨rfl, (lastDotSplit_none_iff t).1 hlt⟩
      · rw [if_neg hc] at h
        cases h

/-- The joint shape of the split around the last dot: the last part of
the split is the text after the last dot, and rejoining every earlier
part deletes exactly the remaining dots. -/
theorem splitDots_lastDot (l : List Char) :
    ∀ b a, lastDotSplit l = some (b, a) →
      (splitDots l).getLastD [] = a ∧
      joinAll (splitDots l).dropLast = b.filter (fun c => c != '.') := by
  induction l with
  | nil => intro b a h; cases h
  | cons c t ih =>
    intro b a h
    unfold lastDotSplit at h
    by_cases hc : c = '.'
    · subst hc
      have hsp : splitDots ('.' :: t) = [] :: splitDots t := by
        conv_lhs => rw [splitDots]
        rw [if_pos rfl]
      cases hlt : lastDotSplit t with
      | none =>
        rw [hlt] at h
        simp only [if_pos rfl] at h
        cases h
        have hnd : '.' ∉ t := (lastDotSplit_none_iff t).1 hlt
        have hst : splitDots t = [t] := splitDots_no_dot hnd
        rw [hsp, hst]
        constructor
        · rfl
        · rfl
      | some pair =>
        obtain ⟨b2, a2⟩ := pair
        rw [hlt] at h
        simp only at h
        cases h
        rcases ih b2 a hlt with ⟨ih1, ih2⟩
        have hne : splitDots t ≠ [] := splitDots_ne_nil t
        rw [hsp]
        constructor
        · rw [List.getLastD_cons]
          exact ih1
        · rw [dropLast_cons_ne_nil _ hne]
          show joinAll ([] :: (splitDots t).dropLast) = List.filter (fun c => c != '.') ('.' :: b2)
          have : List.filter (fun c => c != '.') ('.' :: b2) =
              List.filter (fun c => c != '.') b2 := by simp
          rw [this]
          show [] ++ joinAll (splitDots t).dropLast = _
          rw [List.nil_append]
          exact ih2
    · cases hlt : lastDotSplit t with
      | none =>
        rw [hlt] at h
        simp only [if_neg hc] at h
        cases h
      | some pair =>
        obtain ⟨b2, a2⟩ := pair
        rw [hlt] at h
        simp only at h
        cases h
        rcases ih b2 a hlt with ⟨ih1, ih2⟩
        have hdot : '.' ∈ t := lastDotSplit_mem hlt
        have hlen : 2 ≤ (splitDots t).length := by
          rw [splitDots_length]
          have : 1 ≤ t.count '.' := List.one_le_count_iff.2 hdot
          omega
        cases hsp : splitDots t with
        | nil => exact absurd hsp (splitDots_ne_nil t)
        | cons h2 r =>
          have hr : r ≠ [] := by
            rw [hsp] at hlen
            simp only [List.length_cons] at hlen
            intro hre
            rw [hre] at hlen
            simp at hlen
          have hspc : splitDots (c :: t) = (c :: h2) :: r := by
            unfold splitDots
            rw [if_neg hc, hsp]
          rw [hsp] at ih1 ih2
          rw [hspc]
          constructor
          · rw [List.getLastD_cons]
            rw [getLastD_irrel r hr (c :: h2) h2]
            rw [List.getLastD_cons] at ih1
            exact ih1
          · rw [dropLast_cons_ne_nil _ hr]
            show (c :: h2) ++ joinAll r.dropLast = List.filter (fun x => x != '.') (c :: b2)
            have hfc : List.filter (fun x => x != '.') (c :: b2) =
                c :: List.filter (fun x => x != '.') b2 := by
              simp [hc]
            rw [hfc]
            rw [dropLast_cons_ne_nil _ hr] at ih2
            show c :: (h2 ++ joinAll r.dropLast) = _
            have : h2 ++ joinAll r.dropLast = List.filter (fun x => x != '.') b2 := by
              have := ih2
              simpa [joinAll] using this
            rw [this]

/-- The collapse of the source (split at dots, rejoin all but the last
part, keep the last dot) equals the rule as the specification words it
(all dots but the last are removed). -/
theorem codeCollapse_eq_specCollapse (l : List Char) :
    codeCollapse l = specCollapse l := by
  unfold codeCollapse specCollapse
  cases hld : lastDotSplit l with
  | none =>
    have hnd : '.' ∉ l := (lastDotSplit_none_iff l).1 hld
    have : l.count '.' = 0 := List.count_eq_zero.2 hnd
    have hlen : (splitDots l).length = 1 := by rw [splitDots_length, this]
    simp only [hlen]
    norm_num
  | some pair =>
    obtain ⟨b, a⟩ := pair
    simp only []
    rcases lastDotSplit_decomp l b a hld with ⟨hdec, hna⟩
    have hca : l.count '.' = b.count '.' + 1 := by
      rw [hdec]
      rw [List.count_append, List.count_cons]
      have : a.count '.' = 0 := List.count_eq_zero.2 hna
      simp [this]
    by_cases hbd : hasDot b = true
    · have hbc : 1 ≤ b.count '.' := by
        unfold hasDot at hbd
        rcases List.any_eq_true.1 hbd with ⟨x, hx, hxe⟩
        have : x = '.' := by simpa using hxe
        subst this
        exact List.one_le_count_iff.2 hx
      have hlen : 2 < (splitDots l).length := by
        rw [splitDots_length, hca]
        omega
      rw [if_pos hlen, if_pos hbd]
      rcases splitDots_lastDot l b a hld with ⟨h1, h2⟩
      rw [h1, h2]
    · have hbc : b.count '.' = 0 := by
        rw [List.count_eq_zero]
        intro hm
        unfold hasDot at hbd
        exact hbd (List.any_eq_true.2 ⟨'.', hm, by simp⟩)
      have hlen : (splitDots l).length = 2 := by
        rw [splitDots_length, hca, hbc]
      rw [if_neg (by omega : ¬ 2 < (splitDots l).length)]
      rw [if_neg hbd]

/-- The numeric normalizer of the source computes exactly the function
the specification describes. -/
theorem parseNumberFlexible_eq_spec (l : List Char) :
    parseNumberFlexibleL l = parseNumberSpecL l := by
  show (if l = [] then none
        else parseFloatQ (codeCollapse (removeCommas (removeWs (stripCurrency (jsTrimL l)))))) =
      (if l = [] then none
        else parseFloatQ (specCollapse (removeCommas (removeWs (stripCurrency (jsTrimL l))))))
  rw [codeCollapse_eq_specCollapse]

/-! ### Non-negativity of parsed values

The cleaning steps never introduce a minus sign, and an unsigned decimal
parses to a non-negative value; this carries non-negativity from the
character class of a scanner capture to the parsed number. -/

theorem toRat_nonneg_of_m {q : JNum} (h : 0 ≤ q.m) : 0 ≤ q.toRat := by
  unfold JNum.toRat
  apply div_nonneg
  · exact_mod_cast h
  · positivity

theorem applyExp_m_nonneg {b : JNum} (h : 0 ≤ b.m) (r : List Char) :
    0 ≤ (applyExp b r).m := by
  unfold applyExp
  cases expVal r with
  | none => exact h
  | some pr =>
    obtain ⟨sgn, p⟩ := pr
    cases sgn with
    | true => exact h
    | false => exact mul_nonneg h (le_of_lt (pow10_pos p))

theorem parseFloatPos_nonneg {l : List Char} {q : JNum}
    (h : parseFloatPos l = some q) : 0 ≤ q.toRat := by
  unfold parseFloatPos at h
  split at h
  · cases h
  · split at h
    · -- no integer digits
      split at h
      · split at h
        · cases h
        · obtain rfl := Option.some.inj h
          apply toRat_nonneg_of_m
          apply applyExp_m_nonneg
          exact Int.natCast_nonneg _
      · cases h
    · -- integer digits present
      split at h
      · split at h
        obtain rfl := Option.some.inj h
        apply toRat_nonneg_of_m
        apply applyExp_m_nonneg
        apply add_nonneg
        · exact mul_nonneg (Int.natCast_nonneg _) (le_of_lt (pow10_pos _))
        · exact Int.natCast_nonneg _
      · obtain rfl := Option.some.inj h
        apply toRat_nonneg_of_m
        apply applyExp_m_nonneg
        exact Int.natCast_nonneg _

theorem parseFloatQ_nonneg {l : List Char} {q : JNum}
    (h : parseFloatQ l = some q) (hm : '-' ∉ l) : 0 ≤ q.toRat := by
  rw [parseFloatQ.eq_def] at h
  split at h
  · exact parseFloatPos_nonneg h
  · exact absurd (List.mem_cons_self _ _) hm
  · exact parseFloatPos_nonneg h

/-! ### The cleaning steps only keep characters of the input (plus the
decimal point the dot rule re-inserts) -/

theorem mem_dropWhile {p : Char → Bool} {l : List Char} {x : Char}
    (h : x ∈ l.dropWhile p) : x ∈ l := by
  induction l with
  | nil => simpa using h
  | cons c t ih =>
    rw [List.dropWhile_cons] at h
    by_cases hp : p c = true
    · rw [if_pos hp] at h
      exact List.mem_cons_of_mem _ (ih h)
    · rw [if_neg hp] at h
      exact h

theorem mem_jsTrimL {l : List Char} {x : Char} (h : x ∈ jsTrimL l) : x ∈ l := by
  unfold jsTrimL at h
  rw [List.mem_reverse] at h
  have h2 := mem_dropWhile h
  rw [List.mem_reverse] at h2
  exact mem_dropWhile h2

theorem mem_matchTokCI {p l r : List Char}
    (h : matchTokCI p l = some r) : ∀ x ∈ r, x ∈ l := by
  induction p generalizing l with
  | nil =>
    cases l with
    | nil =>
      obtain rfl := Option.some.inj h
      intro x hx; exact hx
    | cons c t =>
      obtain rfl := Option.some.inj h
      intro x hx; exact hx
  | cons pc pt ih =>
    cases l with
    | nil => cases h
    | cons c t =>
      unfold matchTokCI at h
      split_ifs at h
      intro x hx
      exact List.mem_cons_of_mem _ (ih h x hx)

theorem mem_matchCurrencyTok {l r : List Char}
    (h : matchCurrencyTok l = some r) : ∀ x ∈ r, x ∈ l := by
  unfold matchCurrencyTok at h
  cases l with
  | nil => cases h
  | cons c t =>
    simp only at h
    split_ifs at h with hcur
    · obtain rfl := Option.some.inj h
      intro x hx
      exact List.mem_cons_of_mem _ hx
    · cases h1 : matchTokCI ['I', 'N', 'R'] (c :: t) with
      | some r1 =>
        rw [h1] at h
        obtain rfl := Option.some.inj h
        exact mem_matchTokCI h1
      | none =>
        rw [h1] at h
        cases h2 : matchTokCI ['U', 'S', 'D'] (c :: t) with
        | some r2 =>
          rw [h2] at h
          obtain rfl := Option.some.inj h
          exact mem_matchTokCI h2
        | none =>
          rw [h2] at h
          cases h3 : matchTokCI ['E', 'U', 'R'] (c :: t) with
          | some r3 =>
            rw [h3] at h
            obtain rfl := Option.some.inj h
            exact mem_matchTokCI h3
          | none =>
            rw [h3] at h
            cases h4 : matchTokCI ['G', 'B', 'P'] (c :: t) with
            | some r4 =>
              rw [h4] at h
              obtain rfl := Option.some.inj h
              exact mem_matchTokCI h4
            | none =>
              rw [h4] at h
              cases h5 : matchTokCI ['R', 's'] (c :: t) with
              | some r5 =>
                rw [h5] at h
                obtain rfl := Option.some.inj h
                intro x hx
                split at hx
                · exact mem_matchTokCI h5 x (List.mem_cons_of_mem _ hx)
                · exact mem_matchTokCI h5 x hx
              | none =>
                rw [h5] at h
                cases h

theorem mem_stripCurrencyF (fuel : ℕ) :
    ∀ l x, x ∈ stripCurrencyF fuel l → x ∈ l := by
  induction fuel with
  | zero => intro l x h; simpa [stripCurrencyF] using h
  | succ f ih =>
    intro l x h
    cases l with
    | nil => simpa [stripCurrencyF] using h
    | cons c t =>
      rw [stripCurrencyF] at h
      cases hm : matchCurrencyTok (c :: t) with
      | some rest =>
        rw [hm] at h
        exact mem_matchCurrencyTok hm x (ih rest x h)
      | none =>
        rw [hm] at h
        rcases List.mem_cons.1 h with rfl | h2
        · exact List.mem_cons_self _ _
        · exact List.mem_cons_of_mem _ (ih t x h2)

theorem mem_splitDots {l : List Char} {p : List Char} {x : Char}
    (hp : p ∈ splitDots l) (hx : x ∈ p) : x ∈ l := by
  induction l generalizing p with
  | nil =>
    simp [splitDots] at hp
    subst hp
    simp at hx
  | cons c t ih =>
    unfold splitDots at hp
    by_cases hc : c = '.'
    · rw [if_pos hc] at hp
      rcases List.mem_cons.1 hp with rfl | hp2
      · simp at hx
      · exact List.mem_cons_of_mem _ (ih hp2 hx)
    · rw [if_neg hc] at hp
      cases hs : splitDots t with
      | nil => exact absurd hs (splitDots_ne_nil t)
      | cons ph pr =>
        rw [hs] at hp
        rcases List.mem_cons.1 hp with rfl | hp2
        · rcases List.mem_cons.1 hx with rfl | hx2
          · exact List.mem_cons_self _ _
          · exact List.mem_cons_of_mem _ (ih (hs ▸ List.mem_cons_self _ _) hx2)
        · exact List.mem_cons_of_mem _ (ih (hs ▸ List.mem_cons_of_mem _ hp2) hx)

theorem mem_joinAll {ps : List (List Char)} {x : Char} (h : x ∈ joinAll ps) :
    ∃ p ∈ ps, x ∈ p := by
  induction ps with
  | nil => simp [joinAll] at h
  | cons p pt ih =>
    unfold joinAll at h
    rw [List.foldr_cons, List.mem_append] at h
    rcases h with h1 | h2
    · exact ⟨p, List.mem_cons_self _ _, h1⟩
    · rcases ih h2 with ⟨p2, hp2, hx2⟩
      exact ⟨p2, List.mem_cons_of_mem _ hp2, hx2⟩

theorem getLastD_mem {l : List (List Char)} (h : l ≠ []) (d : List Char) :
    l.getLastD d ∈ l := by
  induction l generalizing d with
  | nil => exact absurd rfl h
  | cons x t ih =>
    rw [List.getLastD_cons]
    cases t with
    | nil => simp [List.getLastD]
    | cons y s => exact List.mem_cons_of_mem _ (ih (by simp) x)

theorem mem_codeCollapse {l : List Char} {x : Char} (h : x ∈ codeCollapse l) :
    x ∈ l ∨ x = '.' := by
  rw [show codeCollapse l =
      (if 2 < (splitDots l).length then
        joinAll (splitDots l).dropLast ++ '.' :: (splitDots l).getLastD []
      else l) from rfl] at h
  split_ifs at h with hlen
  · rw [List.mem_append] at h
    rcases h with h1 | h2
    · rcases mem_joinAll h1 with ⟨p, hp, hx⟩
      have : p ∈ splitDots l := (List.dropLast_sublist _).mem hp
      exact Or.inl (mem_splitDots this hx)
    · rcases List.mem_cons.1 h2 with rfl | h3
      · exact Or.inr rfl
      · have hne : splitDots l ≠ [] := splitDots_ne_nil l
        have := getLastD_mem hne []
        exact Or.inl (mem_splitDots this h3)
  · exact Or.inl h

/-- parseNumberFlexible of a text without a minus sign is non-negative
(the cleaning steps cannot create one). -/
theorem parseNumberFlexibleL_nonneg {l : List Char} {q : JNum}
    (h : parseNumberFlexibleL l = some q) (hm : '-' ∉ l) : 0 ≤ q.toRat := by
  unfold parseNumberFlexibleL at h
  split_ifs at h with he
  apply parseFloatQ_nonneg h
  intro hmem
  rcases mem_codeCollapse hmem with h1 | h1
  · have h2 := (List.mem_filter.1 h1).1
    have h3 := (List.mem_filter.1 h2).1
    exact hm (mem_jsTrimL (mem_stripCurrencyF _ _ _ h3))
  · cases h1

/-! ### Every currency-anchored capture is a digit-dot-comma run, hence
parses non-negative -/

theorem mem_takeWhile_pred {p : Char → Bool} {l : List Char} {x : Char}
    (h : x ∈ l.takeWhile p) : p x = true := by
  induction l with
  | nil => simp at h
  | cons c t ih =>
    rw [List.takeWhile_cons] at h
    by_cases hp : p c = true
    · rw [if_pos hp] at h
      rcases List.mem_cons.1 h with rfl | h2
      · exact hp
      · exact ih h2
    · rw [if_neg hp] at h
      simp at h

theorem curScanAtRests_class {rests : List (List Char)} {raw rest : List Char}
    (h : curScanAtRests rests = some (raw, rest)) : ∀ x ∈ raw, isNumClass x = true := by
  induction rests with
  | nil => cases h
  | cons r rs ih =>
    rw [show curScanAtRests (r :: rs) =
        (if ((r.dropWhile isJsWs).span isNumClass).1 = [] then curScanAtRests rs
         else some (((r.dropWhile isJsWs).span isNumClass).1,
           ((r.dropWhile isJsWs).span isNumClass).2)) from rfl] at h
    split_ifs at h with he
    · exact ih h
    · obtain ⟨h1, _⟩ := Prod.mk.injEq .. ▸ Option.some.inj h
      intro x hx
      rw [← h1] at hx
      rw [List.span_eq_take_drop] at hx
      exact mem_takeWhile_pred hx

theorem isNumClass_ne_minus {x : Char} (h : isNumClass x = true) : x ≠ '-' := by
  intro rfl_eq
  subst rfl_eq
  simp [isNumClass, Char.isDigit] at h

theorem extractAllCurrencyPricesF_nonneg (fuel : ℕ) :
    ∀ l q, q ∈ extractAllCurrencyPricesF fuel l → 0 ≤ q.toRat := by
  induction fuel with
  | zero => intro l q h; simp [extractAllCurrencyPricesF] at h
  | succ f ih =>
    intro l q h
    cases l with
    | nil => simp [extractAllCurrencyPricesF] at h
    | cons c t =>
      rw [extractAllCurrencyPricesF] at h
      split at h
      next raw rest hscan =>
        split at h
        next q2 hp =>
          rcases List.mem_cons.1 h with rfl | h2
          · apply parseNumberFlexibleL_nonneg hp
            intro hmm
            exact isNumClass_ne_minus (curScanAtRests_class hscan '-' hmm) rfl
          · exact ih rest q h2
        next hp =>
          exact ih rest q h
      next hscan =>
        exact ih t q h

theorem extractAllCurrencyPrices_nonneg (s : String) :
    ∀ q ∈ extractAllCurrencyPrices s, 0 ≤ q.toRat := by
  intro q h
  exact extractAllCurrencyPricesF_nonneg _ _ q h

theorem mem_takeWhile_mem {p : Char → Bool} {l : List Char} {x : Char}
    (h : x ∈ l.takeWhile p) : x ∈ l := by
  induction l with
  | nil => simp at h
  | cons c t ih =>
    rw [List.takeWhile_cons] at h
    by_cases hp : p c = true
    · rw [if_pos hp] at h
      rcases List.mem_cons.1 h with rfl | h2
      · exact List.mem_cons_self _ _
      · exact List.mem_cons_of_mem _ (ih h2)
    · rw [if_neg hp] at h
      simp at h

theorem numTok2_class {l raw rest : List Char}
    (h : numTok2 l = some (raw, rest)) : ∀ x ∈ raw, isNumClass x = true := by
  rw [show numTok2 l =
      (if (l.span Char.isDigit).1 = [] then none else
       match (l.span Char.isDigit).2 with
       | s :: x :: y :: r3 =>
         if (s = '.' ∨ s = ',') ∧ x.isDigit ∧ y.isDigit then
           some ((l.span Char.isDigit).1 ++ s :: x :: y :: [], r3)
         else some ((l.span Char.isDigit).1, (l.span Char.isDigit).2)
       | _ => some ((l.span Char.isDigit).1, (l.span Char.isDigit).2)) from rfl] at h
  have hdig : ∀ x ∈ (l.span Char.isDigit).1, isNumClass x = true := by
    intro x hx
    rw [List.span_eq_take_drop] at hx
    have := mem_takeWhile_pred hx
    simp [isNumClass, this]
  split_ifs at h with he
  split at h
  next s x y r3 =>
    split_ifs at h with hcond
    · obtain ⟨h1, _⟩ := Prod.mk.injEq .. ▸ Option.some.inj h
      intro z hz
      rw [← h1] at hz
      rw [List.mem_append] at hz
      rcases hz with hz1 | hz2
      · exact hdig z hz1
      · rcases hcond with ⟨hs, hx, hy⟩
        rcases List.mem_cons.1 hz2 with rfl | hz3
        · rcases hs with rfl | rfl <;> simp [isNumClass]
        · rcases List.mem_cons.1 hz3 with rfl | hz4
          · simp [isNumClass, hx]
          · rcases List.mem_cons.1 hz4 with rfl | hz5
            · simp [isNumClass, hy]
            · simp at hz5
    · obtain ⟨h1, _⟩ := Prod.mk.injEq .. ▸ Option.some.inj h
      intro z hz
      rw [← h1] at hz
      exact hdig z hz
  next =>
    obtain ⟨h1, _⟩ := Prod.mk.injEq .. ▸ Option.some.inj h
    intro z hz
    rw [← h1] at hz
    exact hdig z hz

theorem curNumAtRests_class {rests : List (List Char)} {raw : List Char}
    (h : curNumAtRests rests = some raw) : ∀ x ∈ raw, isNumClass x = true := by
  induction rests with
  | nil => cases h
  | cons r rs ih =>
    unfold curNumAtRests at h
    split at h
    next raw2 rest2 hnum =>
      obtain rfl := Option.some.inj h
      exact numTok2_class hnum
    next hnum =>
      exact ih h

theorem findCurMatchF_class (fuel : ℕ) :
    ∀ l raw, findCurMatchF fuel l = some raw → ∀ x ∈ raw, isNumClass x = true := by
  induction fuel with
  | zero => intro l raw h; cases h
  | succ f ih =>
    intro l raw h
    cases l with
    | nil => cases h
    | cons c t =>
      rw [findCurMatchF] at h
      split at h
      next raw2 hat =>
        obtain rfl := Option.some.inj h
        exact curNumAtRests_class hat
      next hat =>
        exact ih t raw h

theorem tryThousandAt_mem {l out : List Char} (h : tryThousandAt l = some out) :
    ∀ x ∈ out, x ∈ l := by
  rw [show tryThousandAt l =
      (if (l.span Char.isDigit).1 = [] then none else
       match (l.span Char.isDigit).2 with
       | '.' :: x :: y :: z :: rest =>
         if x.isDigit && y.isDigit && z.isDigit &&
             (match rest with | [] => true | w :: _ => !w.isDigit) then
           some ((l.span Char.isDigit).1 ++ x :: y :: z :: rest)
         else none
       | _ => none) from rfl] at h
  have hsub1 : ∀ w, w ∈ (l.span Char.isDigit).1 → w ∈ l := by
    intro w hw
    rw [List.span_eq_take_drop] at hw
    exact mem_takeWhile_mem hw
  have hsub2 : ∀ w, w ∈ (l.span Char.isDigit).2 → w ∈ l := by
    intro w hw
    rw [List.span_eq_take_drop] at hw
    exact mem_dropWhile hw
  split_ifs at h with he
  split at h
  next x y z rest hshape =>
    split_ifs at h with hcond
    · obtain rfl := Option.some.inj h
      intro w hw
      rw [List.mem_append] at hw
      rcases hw with h1 | h2
      · exact hsub1 w h1
      · apply hsub2 w
        rw [hshape]
        exact List.mem_cons_of_mem _ h2
  next => cases h

theorem thousandFixF_mem (fuel : ℕ) :
    ∀ l x, x ∈ thousandFixF fuel l → x ∈ l := by
  induction fuel with
  | zero => intro l x h; simpa [thousandFixF] using h
  | succ f ih =>
    intro l x h
    cases l with
    | nil => simpa [thousandFixF] using h
    | cons c t =>
      rw [thousandFixF] at h
      split at h
      next out hat =>
        exact tryThousandAt_mem hat x h
      next hat =>
        rcases List.mem_cons.1 h with rfl | h2
        · exact List.mem_cons_self _ _
        · exact List.mem_cons_of_mem _ (ih t x h2)

theorem tryCommaDecAt_mem {l out : List Char} (h : tryCommaDecAt l = some out) :
    ∀ x ∈ out, x ∈ l ∨ x = '.' := by
  rw [show tryCommaDecAt l =
      (if (l.span Char.isDigit).1 = [] then none else
       match (l.span Char.isDigit).2 with
       | ',' :: x :: y :: [] =>
         if x.isDigit ∧ y.isDigit then
           some ((l.span Char.isDigit).1 ++ '.' :: x :: y :: [])
         else none
       | _ => none) from rfl] at h
  have hsub1 : ∀ w, w ∈ (l.span Char.isDigit).1 → w ∈ l := by
    intro w hw
    rw [List.span_eq_take_drop] at hw
    exact mem_takeWhile_mem hw
  have hsub2 : ∀ w, w ∈ (l.span Char.isDigit).2 → w ∈ l := by
    intro w hw
    rw [List.span_eq_take_drop] at hw
    exact mem_dropWhile hw
  split_ifs at h with he
  split at h
  next x y hshape =>
    split_ifs at h with hcond
    · obtain rfl := Option.some.inj h
      intro w hw
      rw [List.mem_append] at hw
      rcases hw with h1 | h2
      · exact Or.inl (hsub1 w h1)
      · rcases List.mem_cons.1 h2 with rfl | h3
        · exact Or.inr rfl
        · left
          apply hsub2 w
          rw [hshape]
          rcases List.mem_cons.1 h3 with rfl | h4
          · exact List.mem_cons_of_mem _ (List.mem_cons_self _ _)
          · rcases List.mem_cons.1 h4 with rfl | h5
            · exact List.mem_cons_of_mem _ (List.mem_cons_of_mem _ (List.mem_cons_self _ _))
            · simp at h5
  next => cases h

theorem commaDecFixF_mem (fuel : ℕ) :
    ∀ l x, x ∈ commaDecFixF fuel l → x ∈ l ∨ x = '.' := by
  induction fuel with
  | zero => intro l x h; exact Or.inl (by simpa [commaDecFixF] using h)
  | succ f ih =>
    intro l x h
    cases l with
    | nil => simp [commaDecFixF] at h
    | cons c t =>
      rw [commaDecFixF] at h
      split at h
      next out hat =>
        exact tryCommaDecAt_mem hat x h
      next hat =>
        rcases List.mem_cons.1 h with rfl | h2
        · exact Or.inl (List.mem_cons_self _ _)
        · rcases ih t x h2 with h3 | h3
          · exact Or.inl (List.mem_cons_of_mem _ h3)
          · exact Or.inr h3

theorem numTokensF_class (fuel : ℕ) :
    ∀ l tok, tok ∈ numTokensF fuel l → ∀ x ∈ tok, isNumClass x = true := by
  induction fuel with
  | zero => intro l tok h; simp [numTokensF] at h
  | succ f ih =>
    intro l tok h
    cases l with
    | nil => simp [numTokensF] at h
    | cons c t =>
      rw [show numTokensF (f + 1) (c :: t) = (if c.isDigit then
          (match ((c :: t).span Char.isDigit).2 with
           | s :: r2 =>
             if s = '.' ∨ s = ',' then
               (if (r2.span Char.isDigit).1 = [] then
                  ((c :: t).span Char.isDigit).1 :: numTokensF f ((c :: t).span Char.isDigit).2
                else (((c :: t).span Char.isDigit).1 ++ s :: (r2.span Char.isDigit).1) ::
                  numTokensF f (r2.span Char.isDigit).2)
             else ((c :: t).span Char.isDigit).1 :: numTokensF f ((c :: t).span Char.isDigit).2
           | [] => [((c :: t).span Char.isDigit).1])
        else numTokensF f t) from rfl] at h
      have hdig : ∀ x ∈ ((c :: t).span Char.isDigit).1, isNumClass x = true := by
        intro x hx
        rw [List.span_eq_take_drop] at hx
        have := mem_takeWhile_pred hx
        simp [isNumClass, this]
      split_ifs at h with hc
      · split at h
        next s r2 hshape =>
          split_ifs at h with hs hp2
          · rcases List.mem_cons.1 h with rfl | h2
            · exact hdig
            · exact ih _ tok h2
          · rcases List.mem_cons.1 h with rfl | h2
            · intro x hx
              rw [List.mem_append] at hx
              rcases hx with h3 | h3
              · exact hdig x h3
              · rcases List.mem_cons.1 h3 with rfl | h4
                · rcases hs with rfl | rfl <;> simp [isNumClass]
                · rw [List.span_eq_take_drop] at h4
                  have := mem_takeWhile_pred h4
                  simp [isNumClass, this]
            · exact ih _ tok h2
          · rcases List.mem_cons.1 h with rfl | h2
            · exact hdig
            · exact ih _ tok h2
        next hshape =>
          rcases List.mem_cons.1 h with rfl | h2
          · exact hdig
          · simp at h2
      · exact ih t tok h

theorem mem_insertDesc {x y : JNum} {l : List JNum}
    (h : y ∈ insertDesc x l) : y = x ∨ y ∈ l := by
  induction l with
  | nil => simpa [insertDesc] using h
  | cons z t ih =>
    unfold insertDesc at h
    split_ifs at h with hc
    · rcases List.mem_cons.1 h with rfl | h2
      · exact Or.inl rfl
      · exact Or.inr h2
    · rcases List.mem_cons.1 h with rfl | h2
      · exact Or.inr (List.mem_cons_self _ _)
      · rcases ih h2 with h3 | h3
        · exact Or.inl h3
        · exact Or.inr (List.mem_cons_of_mem _ h3)

theorem mem_sortDesc {y : JNum} {l : List JNum} (h : y ∈ sortDesc l) : y ∈ l := by
  induction l with
  | nil => simpa [sortDesc] using h
  | cons x t ih =>
    unfold sortDesc at h
    rw [List.foldr_cons] at h
    rcases mem_insertDesc h with rfl | h2
    · exact List.mem_cons_self _ _
    · exact List.mem_cons_of_mem _ (ih h2)

theorem fallbackScan_nonneg {cleaned : List Char} {q : JNum}
    (h : fallbackScan cleaned = some q) : 0 ≤ q.toRat := by
  have hnum : ∀ n ∈ ((numTokensF cleaned.length cleaned).map removeCommas).filterMap parseFloatQ,
      0 ≤ n.toRat := by
    intro n hn
    rcases List.mem_filterMap.1 hn with ⟨tokc, htokc, hpf⟩
    rcases List.mem_map.1 htokc with ⟨tok, htok, rfl⟩
    apply parseFloatQ_nonneg hpf
    intro hmm
    have h2 := (List.mem_filter.1 hmm).1
    have := numTokensF_class _ _ tok htok '-' h2
    exact isNumClass_ne_minus this rfl
  rw [show fallbackScan cleaned =
      (if ((numTokensF cleaned.length cleaned).map removeCommas).filterMap parseFloatQ = []
       then none
       else some ((((sortDesc (((numTokensF cleaned.length cleaned).map
           removeCommas).filterMap parseFloatQ)).find?
           (fun n => JNum.leVal ⟨1, 0⟩ n)).getD
           ((sortDesc (((numTokensF cleaned.length cleaned).map
             removeCommas).filterMap parseFloatQ)).headD ⟨0, 0⟩)))) from rfl] at h
  split_ifs at h with he
  obtain rfl := Option.some.inj h
  cases hf : (sortDesc (((numTokensF cleaned.length cleaned).map
      removeCommas).filterMap parseFloatQ)).find? (fun n => JNum.leVal ⟨1, 0⟩ n) with
  | some c =>
    rw [Option.getD_some]
    exact hnum c (mem_sortDesc (List.mem_of_find?_eq_some hf))
  | none =>
    rw [Option.getD_none]
    cases hs : sortDesc (((numTokensF cleaned.length cleaned).map
        removeCommas).filterMap parseFloatQ) with
    | nil =>
      simp [JNum.toRat]
    | cons a s2 =>
      rw [List.headD_cons]
      have ham : a ∈ sortDesc (((numTokensF cleaned.length cleaned).map
          removeCommas).filterMap parseFloatQ) := by
        rw [hs]
        exact List.mem_cons_self a s2
      exact hnum a (mem_sortDesc ham)

/-- extractPriceFromText is never negative: the currency capture contains
only digits, dots and commas, and the fallback tokens likewise. -/
theorem extractPriceFromTextL_nonneg {l : List Char} {q : JNum}
    (h : extractPriceFromTextL l = some q) : 0 ≤ q.toRat := by
  rw [show extractPriceFromTextL l = (if l = [] then none else
      match findCurMatchF (jsTrimL (thousandsPre (nbspToSpace (newlineToSpace l)))).length
          (jsTrimL (thousandsPre (nbspToSpace (newlineToSpace l)))) with
      | some raw =>
        (match parseFloatQ (commaDecFixF (removeWs (removeCommas raw)).length
            (thousandFixF (removeWs (removeCommas raw)).length (removeWs (removeCommas raw)))) with
         | some q2 => some q2
         | none => fallbackScan (jsTrimL (thousandsPre (nbspToSpace (newlineToSpace l)))))
      | none => fallbackScan (jsTrimL (thousandsPre (nbspToSpace (newlineToSpace l))))) from rfl] at h
  split_ifs at h with he
  split at h
  next raw hraw =>
    split at h
    next q2 hpf =>
      obtain rfl := Option.some.inj h
      apply parseFloatQ_nonneg hpf
      intro hmm
      rcases commaDecFixF_mem _ _ _ hmm with h1 | h1
      · have h2 := thousandFixF_mem _ _ _ h1
        have h3 := (List.mem_filter.1 h2).1
        have h4 := (List.mem_filter.1 h3).1
        have := findCurMatchF_class _ _ raw hraw '-' h4
        exact isNumClass_ne_minus this rfl
      · cases h1
    next hpf =>
      exact fallbackScan_nonneg h
  next hraw =>
    exact fallbackScan_nonneg h

theorem extractPriceFromText_nonneg {s : String} {q : JNum}
    (h : extractPriceFromText s = some q) : 0 ≤ q.toRat :=
  extractPriceFromTextL_nonneg h

/-! ### Small bridging facts for the claim statements -/

theorem toRat_mk (m : ℤ) : JNum.toRat ⟨m, 0⟩ = (m : ℚ) := by
  unfold JNum.toRat
  norm_num

theorem floorOf_INR : floorOf "INR" = ⟨50, 0⟩ := by decide

theorem floorOf_not_INR (h : String) (hh : isINRHint h = false) :
    floorOf h = ⟨5, 1⟩ := by
  unfold floorOf
  rw [hh]
  rfl

theorem leVal_fifty_iff (x : JNum) :
    JNum.leVal ⟨50, 0⟩ x = true ↔ (50 : ℚ) ≤ x.toRat := by
  rw [toRat_le_iff]
  rw [show JNum.toRat ⟨50, 0⟩ = (50 : ℚ) from toRat_mk 50]

theorem leVal_half_iff (x : JNum) :
    JNum.leVal ⟨5, 1⟩ x = true ↔ (1 : ℚ) / 2 ≤ x.toRat := by
  rw [toRat_le_iff]
  rw [show JNum.toRat ⟨5, 1⟩ = (1 : ℚ) / 2 from by norm_num [JNum.toRat]]

theorem posVal_iff_toRat (x : JNum) : JNum.posVal x = true ↔ 0 < x.toRat :=
  toRat_pos_iff x

/-- A single Offer node with a numeric price (used by the structured-data
examples). -/
def offerNode (n : JNum) : JSON :=
  .obj [("@type", .str "Offer"), ("price", .num n)]

/-! ### The claims -/

/-- Claim C1: the numeric normalizer strips currency symbols and codes and
whitespace, removes all commas, treats all dots but the last as grouping
when more than one remains, and returns the parsed value, or no value
when the cleaned string does not parse to a finite number; in particular
the rupee-grouped, the plain-decimal and the non-numeric examples.  The
general clause is stated as extensional equality with the normalizer
written from the words of the specification. -/
theorem claim_C1 :
    (parseNumberFlexible "₹1,299").map JNum.toRat = some (1299 : ℚ) ∧
    (parseNumberFlexible "99.99").map JNum.toRat = some ((9999 : ℚ) / 100) ∧
    parseNumberFlexible "abc" = none ∧
    (∀ s : String, parseNumberFlexible s = parseNumberSpec s) := by
  refine ⟨?_, ?_, ?_, ?_⟩
  · rw [show parseNumberFlexible "₹1,299" = some ⟨1299, 0⟩ from by decide]
    show some (JNum.toRat ⟨1299, 0⟩) = some (1299 : ℚ)
    have hv : JNum.toRat ⟨1299, 0⟩ = (1299 : ℚ) := by norm_num [JNum.toRat]
    rw [hv]
  · rw [show parseNumberFlexible "99.99" = some ⟨9999, 2⟩ from by decide]
    show some (JNum.toRat ⟨9999, 2⟩) = some ((9999 : ℚ) / 100)
    have hv : JNum.toRat ⟨9999, 2⟩ = (9999 : ℚ) / 100 := by norm_num [JNum.toRat]
    rw [hv]
  · decide
  · intro s
    exact parseNumberFlexible_eq_spec s.data

/-- Claim C2: the price pipeline runs its six stages in strict order,
the first stage producing a value is terminal, and when every stage is
exhausted the result is null rather than an error: the pipeline equals
the first non-null entry of the stage-result list. -/
theorem claim_C2 (host : String) (d : Doc) :
    getPriceCore host d = firstSome [priceStage1 host d, priceStage2 d, priceStage3 d,
      priceStage4 d, priceStage5 d, priceStage6 d] := by
  cases h1 : pickBestPrice
      (extractFromSelectors d.selectorText d.twitterData1 (domainSpecificSelectors host))
      (rupeeHintOf d.html) with
  | some p =>
    have lhs : getPriceCore host d = some p := by
      unfold getPriceCore
      rw [h1]
    have rhs : firstSome [priceStage1 host d, priceStage2 d, priceStage3 d,
        priceStage4 d, priceStage5 d, priceStage6 d] = some p := by
      rw [show priceStage1 host d = some p from h1]
      rfl
    rw [lhs, rhs]
  | none =>
    have hs1 : priceStage1 host d = none := h1
    cases h2 : tryJSONLD d.ldScripts with
    | some p =>
      have lhs : getPriceCore host d = some p := by
        unfold getPriceCore
        rw [h1, h2]
      have rhs : firstSome [priceStage1 host d, priceStage2 d, priceStage3 d,
          priceStage4 d, priceStage5 d, priceStage6 d] = some p := by
        rw [hs1, show priceStage2 d = some p from h2]
        rfl
      rw [lhs, rhs]
    | none =>
      have hs2 : priceStage2 d = none := h2
      cases h3 : tryEmbeddedJSON d.scriptTexts with
      | some p =>
        have lhs : getPriceCore host d = some p := by
          unfold getPriceCore
          rw [h1, h2, h3]
        have rhs : firstSome [priceStage1 host d, priceStage2 d, priceStage3 d,
            priceStage4 d, priceStage5 d, priceStage6 d] = some p := by
          rw [hs1, hs2, show priceStage3 d = some p from h3]
          rfl
        rw [lhs, rhs]
      | none =>
        have hs3 : priceStage3 d = none := h3
        cases h4 : pickBestPrice (extractAllCurrencyPrices d.html) (rupeeHintOf d.html) with
        | some p =>
          have lhs : getPriceCore host d = some p := by
            unfold getPriceCore
            rw [h1, h2, h3, h4]
          have rhs : firstSome [priceStage1 host d, priceStage2 d, priceStage3 d,
              priceStage4 d, priceStage5 d, priceStage6 d] = some p := by
            rw [hs1, hs2, hs3, show priceStage4 d = some p from h4]
            rfl
          rw [lhs, rhs]
        | none =>
          have hs4 : priceStage4 d = none := h4
          cases h5 : pickBestPrice (extractAllCurrencyPrices d.bodyText)
              (rupeeHintOf d.bodyText) with
          | some p =>
            have lhs : getPriceCore host d = some p := by
              unfold getPriceCore
              rw [h1, h2, h3, h4, h5]
            have rhs : firstSome [priceStage1 host d, priceStage2 d, priceStage3 d,
                priceStage4 d, priceStage5 d, priceStage6 d] = some p := by
              rw [hs1, hs2, hs3, hs4, show priceStage5 d = some p from h5]
              rfl
            rw [lhs, rhs]
          | none =>
            have hs5 : priceStage5 d = none := h5
            cases h6 : labelScan d.bodyText with
            | some cap =>
              cases hn : parseNumberFlexibleL cap with
              | some n =>
                have lhs0 : getPriceCore host d =
                    (match parseNumberFlexibleL cap with
                     | some n => some n
                     | none => none) := by
                  unfold getPriceCore
                  rw [h1, h2, h3, h4, h5, h6]
                have lhs : getPriceCore host d = some n := by
                  rw [lhs0, hn]
                have hs6 : priceStage6 d = some n := by
                  unfold priceStage6
                  rw [h6]
                  exact hn
                have rhs : firstSome [priceStage1 host d, priceStage2 d, priceStage3 d,
                    priceStage4 d, priceStage5 d, priceStage6 d] = some n := by
                  rw [hs1, hs2, hs3, hs4, hs5, hs6]
                  rfl
                rw [lhs, rhs]
              | none =>
                have lhs0 : getPriceCore host d =
                    (match parseNumberFlexibleL cap with
                     | some n => some n
                     | none => none) := by
                  unfold getPriceCore
                  rw [h1, h2, h3, h4, h5, h6]
                have lhs : getPriceCore host d = none := by
                  rw [lhs0, hn]
                have hs6 : priceStage6 d = none := by
                  unfold priceStage6
                  rw [h6]
                  exact hn
                have rhs : firstSome [priceStage1 host d, priceStage2 d, priceStage3 d,
                    priceStage4 d, priceStage5 d, priceStage6 d] = none := by
                  rw [hs1, hs2, hs3, hs4, hs5, hs6]
                  rfl
                rw [lhs, rhs]
            | none =>
              have lhs : getPriceCore host d = none := by
                unfold getPriceCore
                rw [h1, h2, h3, h4, h5, h6]
              have hs6 : priceStage6 d = none := by
                unfold priceStage6
                rw [h6]
              have rhs : firstSome [priceStage1 host d, priceStage2 d, priceStage3 d,
                  priceStage4 d, priceStage5 d, priceStage6 d] = none := by
                rw [hs1, hs2, hs3, hs4, hs5, hs6]
                rfl
              rw [lhs, rhs]

/-- Claim C3, counterexample: the claim detects an INR hint when the
letters INR appear anywhere in the scanned text, but the call sites of
the resolution only test for the rupee sign; on the text INR 2 INR 1500
the code resolves to 2 (floor one half), while the claim's resolution
(floor 50, candidate 2 discarded) yields 1500. -/
theorem counterexample_C3 :
    claimC3Detect "INR 2 INR 1500" = true ∧
    extractAllCurrencyPrices "INR 2 INR 1500" = [⟨2, 0⟩, ⟨1500, 0⟩] ∧
    rupeeHintOf "INR 2 INR 1500" = "" ∧
    pickBestPrice (extractAllCurrencyPrices "INR 2 INR 1500")
      (rupeeHintOf "INR 2 INR 1500") = some ⟨2, 0⟩ ∧
    claimC3Resolve "INR 2 INR 1500" (extractAllCurrencyPrices "INR 2 INR 1500") =
      some ⟨1500, 0⟩ ∧
    pickBestPrice (extractAllCurrencyPrices "INR 2 INR 1500")
        (rupeeHintOf "INR 2 INR 1500") ≠
      claimC3Resolve "INR 2 INR 1500" (extractAllCurrencyPrices "INR 2 INR 1500") := by
  refine ⟨by decide, by decide, by decide, by decide, by decide, by decide⟩

/-- Claim C3 as amended: the INR hint is detected by the rupee sign only
(the letters INR in the scanned text do not trigger it); with an INR hint
candidates below fifty are discarded, with any other hint candidates
below one half are discarded, and when filtering removes every candidate
the resolution returns the minimum of the unfiltered positive
candidates; the two pools of the examples resolve as claimed. -/
theorem claim_C3 :
    (∀ t : String, '₹' ∈ t.data → rupeeHintOf t = "INR") ∧
    (∀ t : String, '₹' ∉ t.data → rupeeHintOf t = "") ∧
    (∀ (cands : List JNum) (q : JNum), pickBestPrice cands "INR" = some q →
      (∃ x ∈ cands, 0 < x.toRat ∧ (50 : ℚ) ≤ x.toRat) → (50 : ℚ) ≤ q.toRat) ∧
    (∀ (cands : List JNum) (q : JNum), pickBestPrice cands "INR" = some q →
      (∀ x ∈ cands, x.toRat < 50) →
      q ∈ cands ∧ 0 < q.toRat ∧ ∀ y ∈ cands, 0 < y.toRat → q.toRat ≤ y.toRat) ∧
    (∀ (hint : String) (cands : List JNum) (q : JNum), isINRHint hint = false →
      pickBestPrice cands hint = some q →
      (∃ x ∈ cands, 0 < x.toRat ∧ (1 : ℚ) / 2 ≤ x.toRat) → (1 : ℚ) / 2 ≤ q.toRat) ∧
    (∀ (hint : String) (cands : List JNum) (q : JNum), isINRHint hint = false →
      pickBestPrice cands hint = some q →
      (∀ x ∈ cands, x.toRat < (1 : ℚ) / 2) →
      q ∈ cands ∧ 0 < q.toRat ∧ ∀ y ∈ cands, 0 < y.toRat → q.toRat ≤ y.toRat) ∧
    pickBestPrice [⟨2, 0⟩, ⟨1500, 0⟩] "INR" = some ⟨1500, 0⟩ ∧
    pickBestPrice [⟨2, 0⟩] "INR" = some ⟨2, 0⟩ := by
  refine ⟨?_, ?_, ?_, ?_, ?_, ?_, by decide, by decide⟩
  · intro t h
    unfold rupeeHintOf
    rw [if_pos (List.elem_iff.mpr h)]
  · intro t h
    unfold rupeeHintOf
    rw [if_neg]
    intro hc
    exact h (List.elem_iff.mp hc)
  · intro cands q h hx
    rcases hx with ⟨x, hxc, hxp, hxf⟩
    have h50 := pickBestPrice_floor h ⟨x, hxc, (posVal_iff_toRat x).2 hxp, by
      rw [floorOf_INR]
      exact (leVal_fifty_iff x).2 hxf⟩
    rw [floorOf_INR] at h50
    exact (leVal_fifty_iff q).1 h50
  · intro cands q h hall
    have hmem := pickBestPrice_some_mem h
    refine ⟨hmem.1, (posVal_iff_toRat q).1 hmem.2, ?_⟩
    intro y hyc hyp
    refine pickBestPrice_fallback_min h ?_ y hyc ((posVal_iff_toRat y).2 hyp)
    intro x hxc _
    rw [floorOf_INR]
    cases hb : JNum.leVal ⟨50, 0⟩ x with
    | false => rfl
    | true =>
      have := (leVal_fifty_iff x).1 hb
      have := hall x hxc
      linarith
  · intro hint cands q hh h hx
    rcases hx with ⟨x, hxc, hxp, hxf⟩
    have hhalf := pickBestPrice_floor h ⟨x, hxc, (posVal_iff_toRat x).2 hxp, by
      rw [floorOf_not_INR hint hh]
      exact (leVal_half_iff x).2 hxf⟩
    rw [floorOf_not_INR hint hh] at hhalf
    exact (leVal_half_iff q).1 hhalf
  · intro hint cands q hh h hall
    have hmem := pickBestPrice_some_mem h
    refine ⟨hmem.1, (posVal_iff_toRat q).1 hmem.2, ?_⟩
    intro y hyc hyp
    refine pickBestPrice_fallback_min h ?_ y hyc ((posVal_iff_toRat y).2 hyp)
    intro x hxc _
    rw [floorOf_not_INR hint hh]
    cases hb : JNum.leVal ⟨5, 1⟩ x with
    | false => rfl
    | true =>
      have := (leVal_half_iff x).1 hb
      have := hall x hxc
      linarith

theorem claim_C3_witness :
    rupeeHintOf "a ₹ b" = "INR" ∧
    rupeeHintOf "INR only" = "" ∧
    (50 : ℚ) ≤ JNum.toRat ⟨1500, 0⟩ ∧
    ((⟨2, 0⟩ : JNum) ∈ [(⟨2, 0⟩ : JNum)] ∧ 0 < JNum.toRat ⟨2, 0⟩ ∧
      ∀ y ∈ [(⟨2, 0⟩ : JNum)], 0 < y.toRat → JNum.toRat ⟨2, 0⟩ ≤ y.toRat) ∧
    (1 : ℚ) / 2 ≤ JNum.toRat ⟨1, 0⟩ ∧
    ((⟨1, 1⟩ : JNum) ∈ [(⟨1, 1⟩ : JNum)] ∧ 0 < JNum.toRat ⟨1, 1⟩ ∧
      ∀ y ∈ [(⟨1, 1⟩ : JNum)], 0 < y.toRat → JNum.toRat ⟨1, 1⟩ ≤ y.toRat) := by
  refine ⟨claim_C3.1 "a ₹ b" (by decide), claim_C3.2.1 "INR only" (by decide),
    ?_, ?_, ?_, ?_⟩
  · exact claim_C3.2.2.1 [⟨2, 0⟩, ⟨1500, 0⟩] ⟨1500, 0⟩ (by decide)
      ⟨⟨1500, 0⟩, by decide, by norm_num [JNum.toRat], by norm_num [JNum.toRat]⟩
  · exact claim_C3.2.2.2.1 [⟨2, 0⟩] ⟨2, 0⟩ (by decide)
      (by
        intro x hx
        have : x = ⟨2, 0⟩ := by simpa using hx
        subst this
        norm_num [JNum.toRat])
  · exact claim_C3.2.2.2.2.1 "" [⟨1, 0⟩] ⟨1, 0⟩ (by decide) (by decide)
      ⟨⟨1, 0⟩, by decide, by norm_num [JNum.toRat], by norm_num [JNum.toRat]⟩
  · exact claim_C3.2.2.2.2.2.1 "" [⟨1, 1⟩] ⟨1, 1⟩ (by decide) (by decide)
      (by
        intro x hx
        have : x = ⟨1, 1⟩ := by simpa using hx
        subst this
        norm_num [JNum.toRat])

/-- Claim C4: the comment of pickBestPrice promises to prefer the most
frequent value, but the counts are computed over the deduplicated list,
so every frequency is one and the comparator always falls back to the
smaller value; on the pool 1200, 1200, 999 the code returns 999 although
1200 is strictly more frequent (the rule of the claim, evaluated by
mostFrequentSmallest, picks 1200).  The example of the specification,
999, 999, 1200, succeeds only because its most frequent value happens to
also be the smallest. -/
theorem claim_C4 :
    pickBestPrice [⟨1200, 0⟩, ⟨1200, 0⟩, ⟨999, 0⟩] "" = some ⟨999, 0⟩ ∧
    mostFrequentSmallest [⟨1200, 0⟩, ⟨1200, 0⟩, ⟨999, 0⟩] = some ⟨1200, 0⟩ ∧
    pickBestPrice [⟨1200, 0⟩, ⟨1200, 0⟩, ⟨999, 0⟩] "" ≠
      mostFrequentSmallest [⟨1200, 0⟩, ⟨1200, 0⟩, ⟨999, 0⟩] ∧
    pickBestPrice [⟨999, 0⟩, ⟨999, 0⟩, ⟨1200, 0⟩] "" = some ⟨999, 0⟩ := by
  refine ⟨by decide, by decide, by decide, by decide⟩

/-- Claim C5, counterexample: the return of tryJSONLD sits inside the
per-script loop, so with the 750 offer in the first block and the 500
offer in the second the code returns 750, while the minimum across all
blocks (the rule as claimed, evaluated by specC5AllBlocksMin) is 500. -/
theorem counterexample_C5 :
    tryJSONLD [some (offerNode ⟨750, 0⟩), some (offerNode ⟨500, 0⟩)] = some ⟨750, 0⟩ ∧
    specC5AllBlocksMin [some (offerNode ⟨750, 0⟩), some (offerNode ⟨500, 0⟩)] =
      some ⟨500, 0⟩ ∧
    tryJSONLD [some (offerNode ⟨750, 0⟩), some (offerNode ⟨500, 0⟩)] ≠
      specC5AllBlocksMin [some (offerNode ⟨750, 0⟩), some (offerNode ⟨500, 0⟩)] := by
  refine ⟨by decide, by decide, by decide⟩

/-- Claim C5 as amended: blocks that fail to parse or collect nothing are
skipped, and the result is the minimum of the values collected within the
first block that collects any, later blocks being ignored; two Offer
nodes with prices 500 and 750 inside one block still yield 500. -/
theorem claim_C5 :
    (∀ (s : Option JSON) (rest : List (Option JSON)) (l : List JNum),
      ldBlockOutcome s = .ok l → l ≠ [] → tryJSONLD (s :: rest) = some (foldMin l)) ∧
    (∀ (s : Option JSON) (rest : List (Option JSON)),
      ldBlockOutcome s = .ok [] → tryJSONLD (s :: rest) = tryJSONLD rest) ∧
    tryJSONLD [some (.arr [offerNode ⟨500, 0⟩, offerNode ⟨750, 0⟩])] = some ⟨500, 0⟩ ∧
    tryJSONLD [none, some (offerNode ⟨500, 0⟩)] = some ⟨500, 0⟩ := by
  refine ⟨?_, ?_, by decide, by decide⟩
  · intro s rest l h hne
    cases l with
    | nil => exact absurd rfl hne
    | cons x t =>
      unfold tryJSONLD
      rw [h]
  · intro s rest h
    unfold tryJSONLD
    rw [h]
    cases rest with
    | nil => rfl
    | cons a t => rfl

theorem claim_C5_witness :
    tryJSONLD [some (offerNode ⟨750, 0⟩), some (offerNode ⟨500, 0⟩)] =
      some (foldMin [⟨750, 0⟩]) ∧
    tryJSONLD [none, some (offerNode ⟨500, 0⟩)] = tryJSONLD [some (offerNode ⟨500, 0⟩)] :=
  ⟨claim_C5.1 (some (offerNode ⟨750, 0⟩)) [some (offerNode ⟨500, 0⟩)] [⟨750, 0⟩]
      rfl (by decide),
   claim_C5.2.1 none [some (offerNode ⟨500, 0⟩)] rfl⟩

/-- Claim C6: the claim (and the inline comment of the source) expect the
one-dot-three-trailing-digits input to be read as a thousands grouping,
but the numeric normalizer keeps a single dot as the decimal point and
returns 1.299, and even the currency extractor - whose code carries the
collapse - captures only two decimals, returning 1.29; its thousands
replace is unreachable. -/
theorem claim_C6 :
    (parseNumberFlexible "1.299").map JNum.toRat = some ((1299 : ℚ) / 1000) ∧
    (extractPriceFromText "₹1.299").map JNum.toRat = some ((129 : ℚ) / 100) ∧
    ((1299 : ℚ) / 1000 ≠ 1299) := by
  refine ⟨?_, ?_, by norm_num⟩
  · rw [show parseNumberFlexible "1.299" = some ⟨1299, 3⟩ from by decide]
    show some (JNum.toRat ⟨1299, 3⟩) = some ((1299 : ℚ) / 1000)
    have hv : JNum.toRat ⟨1299, 3⟩ = (1299 : ℚ) / 1000 := by norm_num [JNum.toRat]
    rw [hv]
  · rw [show extractPriceFromText "₹1.299" = some ⟨129, 2⟩ from by decide]
    show some (JNum.toRat ⟨129, 2⟩) = some ((129 : ℚ) / 100)
    have hv : JNum.toRat ⟨129, 2⟩ = (129 : ℚ) / 100 := by norm_num [JNum.toRat]
    rw [hv]

/-- Claim C7: a fetch failure surfaces as null from getPrice and as the
pair of nulls from getProductInfo, and a URL-constructor throw (modelled
by the absent hostname) likewise; no error propagates. -/
theorem claim_C7 (e : String) (up : Option String) (d : Doc) :
    getPriceModel up (.error e) = none ∧
    getProductInfoModel up (.error e) = (none, none) ∧
    getPriceModel none (.ok d) = none ∧
    getProductInfoModel none (.ok d) = (none, none) :=
  ⟨rfl, rfl, rfl, rfl⟩

/-- Claim C8, counterexample: the selector stage feeds the raw element
text to parseNumberFlexible, which parses a leading minus sign, so an
element whose text is -5 puts the negative value into the candidate
pool. -/
theorem counterexample_C8 :
    (⟨-5, 0⟩ : JNum) ∈ extractFromSelectors
      (fun s => if s = "#p" then some "-5" else none) none ["#p"] ∧
    JNum.toRat ⟨-5, 0⟩ < 0 := by
  constructor
  · decide
  · norm_num [JNum.toRat]

/-- Claim C8 as amended: values from the currency-anchored scanner and
from the text extractor are always non-negative (their captures contain
only digits, dots and commas), and resolution only ever returns positive
values, but the selector stage can place a negative parse of raw element
text into the pool. -/
theorem claim_C8 :
    (∀ s : String, ∀ q ∈ extractAllCurrencyPrices s, 0 ≤ q.toRat) ∧
    (∀ (s : String) (q : JNum), extractPriceFromText s = some q → 0 ≤ q.toRat) ∧
    (∀ (cands : List JNum) (hint : String) (q : JNum),
      pickBestPrice cands hint = some q → 0 < q.toRat) := by
  refine ⟨?_, ?_, ?_⟩
  · intro s q h
    exact extractAllCurrencyPricesF_nonneg _ _ q h
  · intro s q h
    exact extractPriceFromTextL_nonneg h
  · intro cands hint q h
    exact (posVal_iff_toRat q).1 (pickBestPrice_some_mem h).2

theorem claim_C8_witness :
    (0 : ℚ) ≤ JNum.toRat ⟨5, 0⟩ ∧ (0 : ℚ) < JNum.toRat ⟨2, 0⟩ :=
  ⟨claim_C8.1 "₹5" ⟨5, 0⟩ (by decide),
   claim_C8.2.2 [⟨2, 0⟩] "" ⟨2, 0⟩ (by decide)⟩

theorem productInfoPrice_eq_core (host : String) (d : Doc) :
    productInfoPrice host d = getPriceCore host d := by
  unfold productInfoPrice getPriceCore
  cases pickBestPrice
      (extractFromSelectors d.selectorText d.twitterData1 (domainSpecificSelectors host))
      (rupeeHintOf d.html) with
  | some p => rfl
  | none =>
    cases tryJSONLD d.ldScripts with
    | some p => rfl
    | none =>
      cases tryEmbeddedJSON d.scriptTexts with
      | some p => rfl
      | none =>
        cases pickBestPrice (extractAllCurrencyPrices d.html) (rupeeHintOf d.html) with
        | some p => rfl
        | none =>
          cases pickBestPrice (extractAllCurrencyPrices d.bodyText)
              (rupeeHintOf d.bodyText) with
          | some p => rfl
          | none =>
            cases labelScan d.bodyText with
            | some cap => rfl
            | none => rfl

/-- Claim C9: the price computed by getProductInfo equals the price of
getPrice over the same fetched document (the inlined pipeline is the same
function), and at the boundary the price component of getProductInfo
agrees with getPriceModel on every fetch outcome. -/
theorem claim_C9 :
    (∀ (host : String) (d : Doc), productInfoPrice host d = getPriceCore host d) ∧
    (∀ (up : Option String) (f : Except String Doc),
      (getProductInfoModel up f).1 = getPriceModel up f) := by
  constructor
  · intro host d
    exact productInfoPrice_eq_core host d
  · intro up f
    cases f with
    | error e => rfl
    | ok d =>
      cases up with
      | none => rfl
      | some host =>
        simp only [getProductInfoModel, getPriceModel]
        exact productInfoPrice_eq_core host d

/-- Claim C10: resolution returns nothing exactly when no candidate is
positive, and any returned value is an element of the input pool. -/
theorem claim_C10 (cands : List JNum) (hint : String) :
    (pickBestPrice cands hint = none ↔ ∀ x ∈ cands, ¬(0 < x.toRat)) ∧
    (∀ q, pickBestPrice cands hint = some q → q ∈ cands) := by
  constructor
  · rw [pickBestPrice_none_iff]
    constructor
    · intro h x hx hpos
      have h1 := h x hx
      have h2 := (posVal_iff_toRat x).2 hpos
      rw [h1] at h2
      cases h2
    · intro h x hx
      cases hp : JNum.posVal x with
      | false => rfl
      | true => exact absurd ((posVal_iff_toRat x).1 hp) (h x hx)
  · intro q h
    exact (pickBestPrice_some_mem h).1

theorem claim_C10_witness :
    (⟨1500, 0⟩ : JNum) ∈ [(⟨2, 0⟩ : JNum), ⟨1500, 0⟩] :=
  (claim_C10 [⟨2, 0⟩, ⟨1500, 0⟩] "INR").2 ⟨1500, 0⟩ (by decide)

end PriceTracker
